import Mathlib

/-!
# Verification of the alphaclean constraint algebra and tree search

Shallow embedding of `alphaclean/constraints.py` and `alphaclean/search.py`.

Tables are modelled as a list of column names plus a list of rows, each row a
list of cells.  A cell is `Option String`: `none` models Python's `None`, any
other scalar is modelled by its string form.  Per-row quality scores are
rationals.  A Python function that can raise is modelled as returning
`Option _` (`none` = an exception was raised).
-/

set_option autoImplicit false

namespace AlphaClean

/-- A table cell: `none` models Python `None`. -/
abbrev Value := Option String

/-- A pandas DataFrame: named columns and positional rows
(`df.shape == (rows.length, cols.length)`). -/
structure DataFrame where
  cols : List String
  rows : List (List Value)
  deriving DecidableEq, Repr

/-- `omap f l` is `mapM` over `Option`, written by explicit recursion:
it returns `none` as soon as `f` fails on an element (a raised exception
aborting the whole loop). -/
def omap {α β : Type} (f : α → Option β) : List α → Option (List β)
  | [] => some []
  | a :: l =>
    match f a, omap f l with
    | some b, some l' => some (b :: l')
    | _, _ => none

theorem omap_length {α β : Type} (f : α → Option β) :
    ∀ (l : List α) (l' : List β), omap f l = some l' → l'.length = l.length := by
  intro l
  induction l with
  | nil => intro l' h; simp [omap] at h; simp [← h]
  | cons a t ih =>
    intro l' h
    simp only [omap] at h
    cases hfa : f a with
    | none => rw [hfa] at h; simp at h
    | some b =>
      rw [hfa] at h
      cases hot : omap f t with
      | none => rw [hot] at h; simp at h
      | some t' =>
        rw [hot] at h
        simp at h
        rw [← h]
        simp [ih t' hot]

theorem omap_mem {α β : Type} (f : α → Option β) :
    ∀ (l : List α) (l' : List β), omap f l = some l' →
      ∀ b ∈ l', ∃ a ∈ l, f a = some b := by
  intro l
  induction l with
  | nil => intro l' h; simp [omap] at h; subst h; simp
  | cons a t ih =>
    intro l' h
    simp only [omap] at h
    cases hfa : f a with
    | none => rw [hfa] at h; simp at h
    | some b =>
      rw [hfa] at h
      cases hot : omap f t with
      | none => rw [hot] at h; simp at h
      | some t' =>
        rw [hot] at h
        simp at h
        subst h
        intro c hc
        rcases List.mem_cons.mp hc with h1 | h2
        · exact ⟨a, List.mem_cons_self a t, by rw [hfa, h1]⟩
        · rcases ih t' hot c h2 with ⟨x, hx, hfx⟩
          exact ⟨x, List.mem_cons_of_mem a hx, hfx⟩

/-- `Constraint.qfn` (constraints.py:26-31): call `_qfn`, and on any raised
error return the all-ones vector of length `N = df.shape[0]`. -/
def qfnWrap (raw : DataFrame → Option (List ℚ)) (df : DataFrame) : List ℚ :=
  match raw df with
  | some v => v
  | none => List.replicate df.rows.length 1

theorem qfnWrap_none (raw : DataFrame → Option (List ℚ)) (df : DataFrame)
    (h : raw df = none) : qfnWrap raw df = List.replicate df.rows.length 1 := by
  simp [qfnWrap, h]

/-! ## The FD constraint (constraints.py:71-103) -/

/-- `tuple(df[cs].iloc[i,:])` for the row `r`: project the row onto the named
columns; `none` when a column is missing or the row is too short
(pandas `KeyError`/`IndexError`). -/
def projT (df : DataFrame) (cs : List String) (r : List Value) : Option (List Value) :=
  omap (fun c => (df.cols.indexOf? c).bind r.get?) cs

/-- The `(source tuple, target tuple)` pair of every row, in row order. -/
def rowPairs (df : DataFrame) (source target : List String) :
    Option (List (List Value × List Value)) :=
  omap (fun r => do
    let s ← projT df source r
    let t ← projT df target r
    pure (s, t)) df.rows

/-- One iteration of the first loop of `FD._qfn` (constraints.py:87-96):
insert the target tuple into `kv[s]` and take the running max of `len(kv[s])`
into `normalization`. -/
def fdStep (acc : (List Value → Finset (List Value)) × ℕ)
    (p : List Value × List Value) : (List Value → Finset (List Value)) × ℕ :=
  (fun s' => if s' = p.1 then insert p.2 (acc.1 p.1) else acc.1 s',
   max (insert p.2 (acc.1 p.1)).card acc.2)

/-- The final `kv` dictionary and `normalization` of `FD._qfn`. -/
def kvF (pairs : List (List Value × List Value)) :
    (List Value → Finset (List Value)) × ℕ :=
  pairs.foldl fdStep (fun _ => ∅, 0)

/-- `FD._qfn` (constraints.py:81-103): build `kv` and `normalization` over all
rows, then score row `i` as `(len(kv[s_i]) - 1) / normalization`. -/
def fdQfn (source target : List String) (df : DataFrame) : Option (List ℚ) := do
  let pairs ← rowPairs df source target
  let acc := kvF pairs
  pure (pairs.map (fun p => (((acc.1 p.1).card : ℚ) - 1) / (acc.2 : ℚ)))

/-! ### Spec-side description of FD scoring

These definitions follow the spec's words ("group rows by their source-column
tuple; a row's score is `(|distinct target tuples seen for this source tuple| -
1) / max_over_all_groups(|distinct target tuples|)`"), to be compared with the
incremental `kvF` computation taken from the source. -/

/-- Spec-side: the distinct target tuples seen with source tuple `s`. -/
def specTargets (pairs : List (List Value × List Value)) (s : List Value) :
    Finset (List Value) :=
  ((pairs.filter (fun p => p.1 = s)).map Prod.snd).toFinset

/-- Spec-side: `k`, the number of distinct target tuples for source `s`. -/
def specK (pairs : List (List Value × List Value)) (s : List Value) : ℕ :=
  (specTargets pairs s).card

/-- Spec-side: `m`, the worst-case group size over the whole table. -/
def specM (pairs : List (List Value × List Value)) : ℕ :=
  (pairs.map (fun p => specK pairs p.1)).foldr max 0

theorem specTargets_append (l : List (List Value × List Value))
    (p : List Value × List Value) (s : List Value) :
    specTargets (l ++ [p]) s =
      specTargets l s ∪ (if p.1 = s then {p.2} else ∅) := by
  simp only [specTargets, List.filter_append, List.map_append, List.toFinset_append]
  congr 1
  by_cases h : p.1 = s
  · simp [List.filter, h]
  · simp [List.filter, h]

theorem kvF_fst_eq_specTargets (l : List (List Value × List Value)) :
    ∀ s, (kvF l).1 s = specTargets l s := by
  induction l using List.reverseRecOn with
  | nil => intro s; simp [kvF, specTargets]
  | append_singleton l p ih =>
    intro s
    have hf : kvF (l ++ [p]) = fdStep (kvF l) p := by
      simp [kvF, List.foldl_append]
    rw [hf]
    simp only [fdStep]
    rw [specTargets_append]
    by_cases h : s = p.1
    · subst h
      simp [ih, Finset.insert_eq, Finset.union_comm]
    · have h' : ¬ p.1 = s := fun hh => h hh.symm
      simp [h, h', ih s]

theorem le_foldr_max (l : List ℕ) (b : ℕ) : ∀ x ∈ l, x ≤ l.foldr max b := by
  induction l with
  | nil => simp
  | cons a t ih =>
    intro x hx
    rcases List.mem_cons.mp hx with h | h
    · subst h; exact le_max_left _ _
    · exact le_trans (ih x h) (le_max_right _ _)

theorem base_le_foldr_max (l : List ℕ) (b : ℕ) : b ≤ l.foldr max b := by
  induction l with
  | nil => simp
  | cons a t ih => exact le_trans ih (le_max_right _ _)

theorem foldr_max_le (l : List ℕ) (b m : ℕ) (hb : b ≤ m) (h : ∀ x ∈ l, x ≤ m) :
    l.foldr max b ≤ m := by
  induction l with
  | nil => simpa
  | cons a t ih =>
    simp only [List.foldr_cons]
    exact max_le (h a (List.mem_cons_self a t)) (ih (fun x hx => h x (List.mem_cons_of_mem a hx)))

theorem foldr_max_append_singleton (l : List ℕ) (x : ℕ) :
    (l ++ [x]).foldr max 0 = l.foldr max x := by
  rw [List.foldr_append]
  simp

theorem specK_append_self (l : List (List Value × List Value))
    (p : List Value × List Value) :
    specK (l ++ [p]) p.1 = (insert p.2 (specTargets l p.1)).card := by
  simp only [specK]
  rw [specTargets_append]
  simp [Finset.insert_eq, Finset.union_comm]

theorem specK_append_other (l : List (List Value × List Value))
    (p q : List Value × List Value) (h : ¬ p.1 = q.1) :
    specK (l ++ [p]) q.1 = specK l q.1 := by
  simp only [specK]
  rw [specTargets_append]
  simp [h]

theorem specK_le_specK_append (l : List (List Value × List Value))
    (p q : List Value × List Value) :
    specK l q.1 ≤ specK (l ++ [p]) q.1 := by
  simp only [specK]
  rw [specTargets_append]
  exact Finset.card_le_card (Finset.subset_union_left)

theorem kvF_snd_eq_specM (l : List (List Value × List Value)) :
    (kvF l).2 = specM l := by
  induction l using List.reverseRecOn with
  | nil => simp [kvF, specM]
  | append_singleton l p ih =>
    have hf : kvF (l ++ [p]) = fdStep (kvF l) p := by
      simp [kvF, List.foldl_append]
    rw [hf]
    simp only [fdStep]
    rw [kvF_fst_eq_specTargets, ih]
    have hc : (insert p.2 (specTargets l p.1)).card = specK (l ++ [p]) p.1 :=
      (specK_append_self l p).symm
    rw [hc]
    -- the new `normalization` is `max` of the updated group's size and the old max
    have hM : specM (l ++ [p]) = (l.map (fun q => specK (l ++ [p]) q.1)).foldr max (specK (l ++ [p]) p.1) := by
      simp only [specM, List.map_append, List.map_cons, List.map_nil]
      rw [foldr_max_append_singleton]
    rw [hM]
    apply le_antisymm
    · -- max (K' p) (specM l) ≤ foldr
      apply max_le
      · exact base_le_foldr_max _ _
      · apply foldr_max_le
        · exact Nat.zero_le _
        · intro x hx
          rcases List.mem_map.mp hx with ⟨q, hq, hqx⟩
          subst hqx
          calc specK l q.1 ≤ specK (l ++ [p]) q.1 := specK_le_specK_append l p q
            _ ≤ _ := le_foldr_max _ _ _ (List.mem_map.mpr ⟨q, hq, rfl⟩)
    · -- foldr ≤ max (K' p) (specM l)
      apply foldr_max_le
      · exact le_max_left _ _
      · intro x hx
        rcases List.mem_map.mp hx with ⟨q, hq, hqx⟩
        subst hqx
        by_cases hpq : p.1 = q.1
        · rw [← hpq]
          exact le_max_left _ _
        · rw [specK_append_other l p q hpq]
          exact le_trans (le_foldr_max _ _ _ (List.mem_map.mpr ⟨q, hq, rfl⟩)) (le_max_right _ _)

/-- Every row's own target tuple is in its group, so `k ≥ 1`. -/
theorem one_le_specK (l : List (List Value × List Value))
    (p : List Value × List Value) (hp : p ∈ l) : 1 ≤ specK l p.1 := by
  have h2 : p.2 ∈ specTargets l p.1 := by
    simp only [specTargets, List.mem_toFinset, List.mem_map]
    exact ⟨p, List.mem_filter.mpr ⟨hp, by simp⟩, rfl⟩
  simp only [specK]
  exact Finset.card_pos.mpr ⟨p.2, h2⟩

/-- Every group size is at most the worst-case group size `m`. -/
theorem specK_le_specM (l : List (List Value × List Value))
    (p : List Value × List Value) (hp : p ∈ l) : specK l p.1 ≤ specM l :=
  le_foldr_max _ _ _ (List.mem_map.mpr ⟨p, hp, rfl⟩)

theorem one_le_specM (l : List (List Value × List Value))
    (p : List Value × List Value) (hp : p ∈ l) : 1 ≤ specM l :=
  le_trans (one_le_specK l p hp) (specK_le_specM l p hp)

/-- Scores produced by `FD._qfn` lie in `[0,1]`. -/
theorem fd_score_bounds (l : List (List Value × List Value))
    (p : List Value × List Value) (hp : p ∈ l) :
    0 ≤ ((specK l p.1 : ℚ) - 1) / (specM l : ℚ) ∧
      ((specK l p.1 : ℚ) - 1) / (specM l : ℚ) ≤ 1 := by
  have hk1 : 1 ≤ specK l p.1 := one_le_specK l p hp
  have hkm : specK l p.1 ≤ specM l := specK_le_specM l p hp
  have hm1 : 1 ≤ specM l := one_le_specM l p hp
  have hmQ : (0 : ℚ) < (specM l : ℚ) := by exact_mod_cast hm1
  constructor
  · apply div_nonneg _ (le_of_lt hmQ)
    have : (1 : ℚ) ≤ (specK l p.1 : ℚ) := by exact_mod_cast hk1
    linarith
  · rw [div_le_one hmQ]
    have : (specK l p.1 : ℚ) ≤ (specM l : ℚ) := by exact_mod_cast hkm
    linarith

/-! ## The Predicate constraint (constraints.py:113-142) -/

/-- `Predicate._qfn` (constraints.py:125-142): score 0.01 for a null value,
0 when the test passes, 1 otherwise.  `none` models the `KeyError` that
`df[self.attr]` raises when the column is missing. -/
def predQfn (attr : String) (expr : String → Bool) (df : DataFrame) :
    Option (List ℚ) :=
  match df.cols.indexOf? attr with
  | none => none
  | some j =>
    omap (fun r =>
      match r.get? j with
      | none => none
      | some none => some (1/100)
      | some (some v) => some (if expr v then 0 else 1)) df.rows

/-! ## The Shape constraint (constraints.py:146-163) -/

/-- `Shape._qfn` (constraints.py:154-163): all ones when the table's shape
differs from the expected `(rows, columns)`, else all zeros. -/
def shapeQfn (rows columns : ℕ) (df : DataFrame) : List ℚ :=
  if df.rows.length ≠ rows ∨ df.cols.length ≠ columns then
    List.replicate df.rows.length 1
  else
    List.replicate df.rows.length 0

/-! ## The CellEdit constraint (constraints.py:166-253) -/

/-- Levenshtein edit distance, as computed by `distance.levenshtein`. -/
def lev : List Char → List Char → ℕ
  | [], bs => bs.length
  | a :: as, [] => (a :: as).length
  | a :: as, b :: bs =>
    if a = b then lev as bs
    else 1 + min (lev as (b :: bs)) (min (lev (a :: as) bs) (lev as bs))
termination_by a b => a.length + b.length

theorem lev_le_max : ∀ (a b : List Char), lev a b ≤ max a.length b.length
  | [], bs => by simp [lev]
  | a :: as, [] => by simp [lev]
  | a :: as, b :: bs => by
    have ih := lev_le_max as bs
    by_cases h : a = b
    · rw [show lev (a :: as) (b :: bs) = lev as bs by rw [lev]; simp [h]]
      simp only [List.length_cons]
      omega
    · rw [show lev (a :: as) (b :: bs)
          = 1 + min (lev as (b :: bs)) (min (lev (a :: as) bs) (lev as bs)) by
        rw [lev]; simp [h]]
      have hmin : min (lev as (b :: bs)) (min (lev (a :: as) bs) (lev as bs))
          ≤ lev as bs :=
        le_trans (min_le_right _ _) (min_le_right _ _)
      simp only [List.length_cons]
      omega
termination_by a b => a.length + b.length

/-- `str(x)` on a cell: Python renders `None` as `"None"`. -/
def pyStr : Value → String
  | none => "None"
  | some s => s

/-- `x.lower().split()`: lower-case, split on whitespace, drop empty pieces;
deduplicated because Python builds a `set` of the tokens. -/
def tokensL (s : String) : List String :=
  ((s.toLower.split Char.isWhitespace).filter (fun t => t ≠ "")).dedup

/-- The token set itself (for the jaccard set operations). -/
def tokens (s : String) : Finset String :=
  (tokensL s).toFinset

/-- The per-column distance metric choice (values of `self.metric`). -/
inductive MK where
  | edit
  | jaccard
  | semantic
  | other
  deriving DecidableEq, Repr

/-- The external word-embedding provider (`self.word_vectors.similarity`):
`none` models a failed lookup; a successful lookup is a cosine similarity,
hence in `[-1, 1]`. -/
structure SimProvider where
  sim : String → String → Option ℚ
  bounded : ∀ t r q, sim t r = some q → -1 ≤ q ∧ q ≤ 1

/-- `self.metric` after `CellEdit.__init__` (constraints.py:171-176):
default `edit` for every column, overridden by the `metric` argument. -/
def mfOf (marg : List (String × MK)) (c : String) : MK :=
  ((marg.find? (fun pr => pr.1 = c)).map Prod.snd).getD MK.edit

/-- The rescaled similarities of every token pair in
`ttokens × rtokens` (constraints.py:226-238): `(similarity + 1)/2` with a
failed lookup counted as 0. -/
def semList (simP : SimProvider) (target ref : String) : List ℚ :=
  ((tokensL target).map (fun t => (tokensL ref).map (fun r =>
    match simP.sim t r with
    | some q => (q + 1) / 2
    | none => 0))).flatten

/-- The metric-specific distance of one cell (constraints.py:216-245), for
cells that passed the short-circuits: normalized Levenshtein over `p` for
`edit`, `1 - Jaccard` over `p` for `jaccard`, `1 - mean(rescaled
similarity)` over `p` for `semantic` (or `1/p` when there are no token
pairs); an unknown metric string adds nothing. -/
def metricContrib (simP : SimProvider) (mk : MK) (p : ℕ) (target ref : String) :
    Option ℚ :=
  match mk with
  | MK.edit =>
    some (((lev target.toList ref.toList : ℚ) /
      (max target.length ref.length : ℚ)) / (p : ℚ))
  | MK.jaccard =>
    if (tokens target ∪ tokens ref).card = 0 then none
    else some ((1 - ((tokens target ∩ tokens ref).card : ℚ) /
      ((tokens target ∪ tokens ref).card : ℚ)) / (p : ℚ))
  | MK.semantic =>
    if (semList simP target ref).length ≠ 0 then
      some ((1 - (semList simP target ref).sum /
        ((semList simP target ref).length : ℚ)) / (p : ℚ))
    else some (1/(p : ℚ))
  | MK.other => some 0

/-- The contribution of one cell to its row's score in `CellEdit._qfn`
(constraints.py:194-245), following the source's short-circuits; `none`
models a raised error (the `ZeroDivisionError` of the jaccard branch on
token-free strings). -/
def cellContrib (simP : SimProvider) (mk : MK) (p : ℕ) (dv sv : Value) :
    Option ℚ :=
  if pyStr dv = pyStr sv then some 0
  else if dv = none then some 0
  else if pyStr dv = "" then some (1/(p : ℚ))
  else if pyStr sv = "" then some (1/(p : ℚ))
  else metricContrib simP mk p (pyStr dv) (pyStr sv)

/-- One row of `CellEdit._qfn`: the sum over the `p` columns of the cell
contributions. -/
def rowScore (source : DataFrame) (marg : List (String × MK))
    (simP : SimProvider) (p : ℕ) (dr sr : List Value) : Option ℚ :=
  (omap (fun j =>
    match source.cols.get? j, dr.get? j, sr.get? j with
    | some cname, some dv, some sv => cellContrib simP (mfOf marg cname) p dv sv
    | _, _, _ => none) (List.range p)).map List.sum

/-- `CellEdit._qfn` (constraints.py:186-253): all ones when the candidate's
shape differs from the reference's, else the per-row summed cell distances. -/
def cellEditRaw (source : DataFrame) (marg : List (String × MK))
    (simP : SimProvider) (df : DataFrame) : Option (List ℚ) :=
  if df.rows.length = source.rows.length ∧ df.cols.length = source.cols.length then
    omap (fun pr => rowScore source marg simP df.cols.length pr.1 pr.2)
      (df.rows.zip source.rows)
  else some (List.replicate df.rows.length 1)

/-- `CellEdit(...).qfn`, the total quality function of the fidelity metric. -/
def cellEditQfn (source : DataFrame) (marg : List (String × MK))
    (simP : SimProvider) (df : DataFrame) : List ℚ :=
  qfnWrap (cellEditRaw source marg simP) df

/-! ## Constraint objects and the composition algebra (constraints.py:14-67)

A Python constraint object carries a bound quality function plus two
attributes, `hint` and `hintParams`, either of which may be *missing* (the
subclass `__init__` never set it).  `CExpr` enumerates the constraint objects
constructible from the classes of `constraints.py` and the `+`/`*` operators.
-/

/-- `hintParams` dictionaries map string keys to codebook values. -/
abbrev HP := String → Option (List String)

/-- The attributes of a constraint object; `none` = the attribute is missing,
so reading it raises `AttributeError`. -/
abbrev Attrs := Option (Finset String) × Option HP

/-- Constraint expressions: each constructor is one class of `constraints.py`
(`DictValue`, `Date` and `Pattern` are `Predicate`s with a specific test), and
`add`/`mulC` are the `+` and constraint-`*` composites. -/
inductive CExpr where
  | base
  | fd (source target : List String)
  | pred (attr : String) (expr : String → Bool)
  | dictValue (attr : String) (codebook : List String)
  | shape (rows columns : ℕ)
  | cellEdit (source : DataFrame) (marg : List (String × MK)) (simP : SimProvider)
  | add (a b : CExpr)
  | mulC (a b : CExpr)

/-- `Constraint.__add__` (constraints.py:37-46) on the operands' attributes:
`c.hint = self.hint | other.hint`, `c.hintParams = self.hintParams.copy()`
then `.update(other.hintParams)` (so `other` wins on key collision); reading
a missing attribute raises, which propagates to the caller. -/
def combineAdd : Attrs → Attrs → Option Attrs
  | (some h1, some p1), (some h2, some p2) =>
    some (some (h1 ∪ h2), some (fun k => (p2 k).or (p1 k)))
  | _, _ => none

/-- The `except` branch of `Constraint.__mul__` (constraints.py:59-67): same
attribute handling as `__add__` (the raised `AttributeError` of the scalar
branch is not caught a second time). -/
def combineMulC : Attrs → Attrs → Option Attrs
  | (some h1, some p1), (some h2, some p2) =>
    some (some (h1 ∪ h2), some (fun k => (p2 k).or (p1 k)))
  | _, _ => none

/-- The attributes of each constructible constraint object, or `none` when
its construction raises.  `Constraint.__init__` (constraints.py:16-24) sets
`hint` and `hintParams` (adding `codebook` when the object has one);
`FD.__init__` sets only `hint`; `Shape.__init__` and `CellEdit.__init__`
set neither. -/
def attrsOf : CExpr → Option Attrs
  | CExpr.base => some (some ∅, some (fun _ => none))
  | CExpr.fd s t => some (some (s ++ t).toFinset, none)
  | CExpr.pred a _ => some (some {a}, some (fun _ => none))
  | CExpr.dictValue a cb =>
    some (some {a}, some (fun k => if k = "codebook" then some cb else none))
  | CExpr.shape _ _ => some (none, none)
  | CExpr.cellEdit _ _ _ => some (none, none)
  | CExpr.add a b => do combineAdd (← attrsOf a) (← attrsOf b)
  | CExpr.mulC a b => do combineMulC (← attrsOf a) (← attrsOf b)

/-- The `_qfn` of each leaf class; composites inherit the base `_qfn`, which
raises `NotImplemented`. -/
def rawQfn : CExpr → DataFrame → Option (List ℚ)
  | CExpr.base, _ => none
  | CExpr.fd s t, df => fdQfn s t df
  | CExpr.pred a ex, df => predQfn a ex df
  | CExpr.dictValue a cb, df => predQfn a (fun x => cb.contains x) df
  | CExpr.shape r c, df => some (shapeQfn r c df)
  | CExpr.cellEdit src marg simP, df => cellEditRaw src marg simP df
  | CExpr.add _ _, _ => none
  | CExpr.mulC _ _, _ => none

/-- The bound `qfn` of each constraint object: leaves use the error-catching
`Constraint.qfn` method; `+` and constraint-`*` composites carry the lambdas
of constraints.py:39 and constraints.py:61. -/
def cqfn : CExpr → DataFrame → List ℚ
  | CExpr.add a b, df =>
    List.zipWith (fun x y => (x + y) / 2) (cqfn a df) (cqfn b df)
  | CExpr.mulC a b, df =>
    List.zipWith max (cqfn a df) (cqfn b df)
  | CExpr.base, df => qfnWrap (rawQfn CExpr.base) df
  | CExpr.fd s t, df => qfnWrap (rawQfn (CExpr.fd s t)) df
  | CExpr.pred a ex, df => qfnWrap (rawQfn (CExpr.pred a ex)) df
  | CExpr.dictValue a cb, df => qfnWrap (rawQfn (CExpr.dictValue a cb)) df
  | CExpr.shape r c, df => qfnWrap (rawQfn (CExpr.shape r c)) df
  | CExpr.cellEdit src marg simP, df =>
    qfnWrap (rawQfn (CExpr.cellEdit src marg simP)) df

/-- `OneToOne` (constraints.py:106-107). -/
def OneToOne (source target : List String) : CExpr :=
  CExpr.mulC (CExpr.fd source target) (CExpr.fd target source)

/-! ### `Constraint.__mul__` with a scalar operand (constraints.py:48-58) -/

/-- The operand of `__mul__`: a numeric scalar or another constraint. -/
inductive MulArg where
  | scalar (w : ℚ)
  | constr (e : CExpr)

/-- `float(other)`: succeeds exactly on scalars (constraint objects define no
`__float__`, so `float` raises `TypeError` on them). -/
def tryFloat : MulArg → Option ℚ
  | MulArg.scalar w => some w
  | MulArg.constr _ => none

/-- `other.hint` for a `__mul__` operand: scalars have no `hint` attribute. -/
def argHint : MulArg → Option (Finset String)
  | MulArg.scalar _ => none
  | MulArg.constr e => (attrsOf e).bind Prod.fst

/-- `other.hintParams` for a `__mul__` operand. -/
def argHP : MulArg → Option HP
  | MulArg.scalar _ => none
  | MulArg.constr e => (attrsOf e).bind Prod.snd

/-- The result of a successful `__mul__` call: the new object's attributes
and its bound quality function. -/
structure BuiltConstraint where
  hint : Finset String
  hp : HP
  q : DataFrame → List ℚ

/-- The max-combine quality function of the `except` branch of `__mul__`
(constraints.py:61); never evaluated for a scalar operand, since building
that lambda's closure raises first. -/
def mulQfn (self : CExpr) (other : MulArg) (df : DataFrame) : List ℚ :=
  match other with
  | MulArg.scalar _ => []
  | MulArg.constr o => List.zipWith max (cqfn self df) (cqfn o df)

/-- The `except` branch of `Constraint.__mul__` (constraints.py:59-67):
build the max-combine constraint if `self` and `other` both expose `hint`
and `hintParams`, and raise (`none`) otherwise. -/
def mulExceptBranch (self : CExpr) (other : MulArg) : Option BuiltConstraint :=
  match (attrsOf self).bind Prod.fst, argHint other,
      (attrsOf self).bind Prod.snd, argHP other with
  | some h1, some h2, some p1, some p2 =>
    some ⟨h1 ∪ h2, fun k => (p2 k).or (p1 k), mulQfn self other⟩
  | _, _, _, _ => none

/-- `Constraint.__mul__` (constraints.py:48-67), given the already-constructed
`self`.  The `try` branch computes `float(other)` and, on success, builds the
scaled quality function, but then evaluates `self.hint.union(other.hint)`;
any failure falls to the `except` branch, which evaluates the same attribute
accesses, this time letting a failure propagate. -/
def constraintMul (self : CExpr) (other : MulArg) : Option BuiltConstraint :=
  match tryFloat other with
  | some w =>
    match (attrsOf self).bind Prod.fst, argHint other,
        (attrsOf self).bind Prod.snd, argHP other with
    | some h1, some h2, some p1, some p2 =>
      some ⟨h1 ∪ h2, fun k => (p2 k).or (p1 k),
        fun df => (cqfn self df).map (fun x => w * x)⟩
    | _, _, _, _ => mulExceptBranch self other
  | none => mulExceptBranch self other

/-! ## Totality and boundedness of every quality function -/

theorem mem_zipWith {α : Type} (f : α → α → α) :
    ∀ (A B : List α) (q : α), q ∈ List.zipWith f A B →
      ∃ x y, x ∈ A ∧ y ∈ B ∧ q = f x y := by
  intro A
  induction A with
  | nil => intro B q h; simp at h
  | cons a as ih =>
    intro B q h
    cases B with
    | nil => simp at h
    | cons b bs =>
      simp only [List.zipWith_cons_cons] at h
      rcases List.mem_cons.mp h with h1 | h2
      · exact ⟨a, b, by simp, by simp, h1⟩
      · rcases ih bs q h2 with ⟨x, y, hx, hy, hq⟩
        exact ⟨x, y, List.mem_cons_of_mem a hx, List.mem_cons_of_mem b hy, hq⟩

theorem sum_list_nonneg (l : List ℚ) (h : ∀ x ∈ l, 0 ≤ x) : 0 ≤ l.sum := by
  induction l with
  | nil => simp
  | cons a t ih =>
    simp only [List.sum_cons]
    have := h a (List.mem_cons_self a t)
    have := ih (fun x hx => h x (List.mem_cons_of_mem a hx))
    linarith

theorem sum_list_le (l : List ℚ) (c : ℚ) (h : ∀ x ∈ l, x ≤ c) :
    l.sum ≤ l.length * c := by
  induction l with
  | nil => simp
  | cons a t ih =>
    simp only [List.sum_cons, List.length_cons]
    have := h a (List.mem_cons_self a t)
    have := ih (fun x hx => h x (List.mem_cons_of_mem a hx))
    push_cast
    linarith

theorem div_cast_bounds (x : ℚ) (p : ℕ) (hx0 : 0 ≤ x) (hx1 : x ≤ 1) :
    0 ≤ x / (p : ℚ) ∧ x / (p : ℚ) ≤ 1 / (p : ℚ) := by
  refine ⟨div_nonneg hx0 (by positivity), ?_⟩
  rcases Nat.eq_zero_or_pos p with hp | hp
  · subst hp; simp
  · have : (0 : ℚ) < (p : ℚ) := by exact_mod_cast hp
    exact div_le_div_of_nonneg_right hx1 this.le

theorem one_div_cast_nonneg (p : ℕ) : 0 ≤ 1 / (p : ℚ) := by positivity

/-- Entries of a `semList` list lie in `[0,1]`. -/
theorem semList_bounds (simP : SimProvider) (target ref : String) :
    ∀ x ∈ semList simP target ref, 0 ≤ x ∧ x ≤ 1 := by
  intro x hx
  rcases List.mem_flatten.mp hx with ⟨inner, hinner, hxin⟩
  rcases List.mem_map.mp hinner with ⟨t, _, hteq⟩
  subst hteq
  rcases List.mem_map.mp hxin with ⟨r, _, hreq⟩
  subst hreq
  cases ho : simP.sim t r with
  | none => exact ⟨le_refl 0, by norm_num⟩
  | some qq =>
    rcases simP.bounded t r qq ho with ⟨hq1, hq2⟩
    refine (⟨?_, ?_⟩ : 0 ≤ (qq + 1) / 2 ∧ (qq + 1) / 2 ≤ 1) <;> linarith

/-- Every defined metric-specific distance lies in `[0, 1/p]`. -/
theorem metricContrib_bounds (simP : SimProvider) (mk : MK) (p : ℕ)
    (target ref : String) (q : ℚ) (h : metricContrib simP mk p target ref = some q) :
    0 ≤ q ∧ q ≤ 1 / (p : ℚ) := by
  cases mk with
  | edit =>
    simp only [metricContrib] at h
    injection h with h
    subst h
    have hlen' : lev target.toList ref.toList ≤ max target.length ref.length :=
      lev_le_max target.toList ref.toList
    have hlev : (lev target.toList ref.toList : ℚ) /
        ((target.length : ℚ) ⊔ (ref.length : ℚ)) ≤ 1 := by
      rcases Nat.eq_zero_or_pos (max target.length ref.length) with hm | hm
      · have h1' : target.length = 0 := by omega
        have h2' : ref.length = 0 := by omega
        rw [h1', h2']
        norm_num
      · have hmQ : (0 : ℚ) < (target.length : ℚ) ⊔ (ref.length : ℚ) := by
          have hQ : (0 : ℚ) < ((max target.length ref.length : ℕ) : ℚ) := by
            exact_mod_cast hm
          rwa [Nat.cast_max] at hQ
        rw [div_le_one hmQ]
        exact_mod_cast hlen'
    have hlev0 : (0 : ℚ) ≤ (lev target.toList ref.toList : ℚ) /
        ((target.length : ℚ) ⊔ (ref.length : ℚ)) := by positivity
    exact div_cast_bounds _ p hlev0 hlev
  | jaccard =>
    simp only [metricContrib] at h
    split_ifs at h with hu
    injection h with h
    subst h
    have hsub : (tokens target ∩ tokens ref).card ≤ (tokens target ∪ tokens ref).card :=
      Finset.card_le_card Finset.inter_subset_union
    have huQ : (0 : ℚ) < ((tokens target ∪ tokens ref).card : ℚ) := by
      have : 0 < (tokens target ∪ tokens ref).card := Nat.pos_of_ne_zero hu
      exact_mod_cast this
    have hr1 : ((tokens target ∩ tokens ref).card : ℚ) /
        ((tokens target ∪ tokens ref).card : ℚ) ≤ 1 := by
      rw [div_le_one huQ]; exact_mod_cast hsub
    have hr0 : (0 : ℚ) ≤ ((tokens target ∩ tokens ref).card : ℚ) /
        ((tokens target ∪ tokens ref).card : ℚ) := by positivity
    exact div_cast_bounds _ p (by linarith) (by linarith)
  | semantic =>
    simp only [metricContrib] at h
    split_ifs at h with hne
    · injection h with h
      subst h
      have hbnd := semList_bounds simP target ref
      have hlen : 0 < ((semList simP target ref).length : ℚ) := by
        have : 0 < (semList simP target ref).length := Nat.pos_of_ne_zero hne
        exact_mod_cast this
      have hsum0 : 0 ≤ (semList simP target ref).sum :=
        sum_list_nonneg _ (fun x hx => (hbnd x hx).1)
      have hsum1 : (semList simP target ref).sum
          ≤ ((semList simP target ref).length : ℚ) * 1 :=
        sum_list_le _ 1 (fun x hx => (hbnd x hx).2)
      have hmean0 : 0 ≤ (semList simP target ref).sum /
          ((semList simP target ref).length : ℚ) := by positivity
      have hmean1 : (semList simP target ref).sum /
          ((semList simP target ref).length : ℚ) ≤ 1 := by
        rw [div_le_one hlen]; linarith
      exact div_cast_bounds _ p (by linarith) (by linarith)
    · injection h with h
      subst h
      exact ⟨one_div_cast_nonneg p, le_refl _⟩
  | other =>
    simp only [metricContrib] at h
    injection h with h
    subst h
    exact ⟨le_refl 0, one_div_cast_nonneg p⟩

/-- Every defined cell contribution lies in `[0, 1/p]`. -/
theorem cellContrib_bounds (simP : SimProvider) (mk : MK) (p : ℕ) (dv sv : Value)
    (q : ℚ) (h : cellContrib simP mk p dv sv = some q) :
    0 ≤ q ∧ q ≤ 1 / (p : ℚ) := by
  unfold cellContrib at h
  split_ifs at h with h1 h2 h3 h4
  · injection h with h; subst h; exact ⟨le_refl 0, one_div_cast_nonneg p⟩
  · injection h with h; subst h; exact ⟨le_refl 0, one_div_cast_nonneg p⟩
  · injection h with h; subst h; exact ⟨one_div_cast_nonneg p, le_refl _⟩
  · injection h with h; subst h; exact ⟨one_div_cast_nonneg p, le_refl _⟩
  · exact metricContrib_bounds simP mk p (pyStr dv) (pyStr sv) q h

/-- Every defined row score of `CellEdit._qfn` lies in `[0, 1]`. -/
theorem rowScore_bounds (source : DataFrame) (marg : List (String × MK))
    (simP : SimProvider) (p : ℕ) (dr sr : List Value) (q : ℚ)
    (hp : p = source.cols.length)
    (h : rowScore source marg simP p dr sr = some q) : 0 ≤ q ∧ q ≤ 1 := by
  unfold rowScore at h
  cases hcl : omap (fun j =>
    match source.cols.get? j, dr.get? j, sr.get? j with
    | some cname, some dv, some sv => cellContrib simP (mfOf marg cname) p dv sv
    | _, _, _ => none) (List.range p) with
  | none =>
    rw [hcl] at h
    exact absurd h (by simp)
  | some contribs =>
    rw [hcl] at h
    simp only [Option.map_some'] at h
    injection h with h
    subst h
    have hlen : contribs.length = p := by
      have := omap_length _ _ _ hcl
      simpa using this
    have hbnd : ∀ x ∈ contribs, 0 ≤ x ∧ x ≤ 1 / (p : ℚ) := by
      intro x hx
      rcases omap_mem _ _ _ hcl x hx with ⟨j, _, hj⟩
      cases hcn : source.cols.get? j with
      | none => rw [hcn] at hj; simp at hj
      | some cname =>
        cases hdv : dr.get? j with
        | none => rw [hcn, hdv] at hj; simp at hj
        | some dv =>
          cases hsv : sr.get? j with
          | none => rw [hcn, hdv, hsv] at hj; simp at hj
          | some sv =>
            rw [hcn, hdv, hsv] at hj
            exact cellContrib_bounds _ _ _ _ _ _ hj
    constructor
    · exact sum_list_nonneg _ (fun x hx => (hbnd x hx).1)
    · have := sum_list_le _ _ (fun x hx => (hbnd x hx).2)
      rw [hlen] at this
      rcases Nat.eq_zero_or_pos p with hp0 | hp0
      · subst hp0
        have : contribs = [] := List.length_eq_zero.mp hlen
        subst this
        simp
      · have hpQ : ((p : ℚ)) ≠ 0 := by
          have : (0 : ℚ) < (p : ℚ) := by exact_mod_cast hp0
          linarith
        calc contribs.sum ≤ (p : ℚ) * (1 / (p : ℚ)) := this
          _ = 1 := by field_simp

/-- `CellEdit._qfn` always returns (when defined) a vector of length `N` with
entries in `[0,1]`. -/
theorem cellEditRaw_bounds (source : DataFrame) (marg : List (String × MK))
    (simP : SimProvider) (df : DataFrame) (v : List ℚ)
    (h : cellEditRaw source marg simP df = some v) :
    v.length = df.rows.length ∧ ∀ q ∈ v, 0 ≤ q ∧ q ≤ 1 := by
  unfold cellEditRaw at h
  split_ifs at h with hshape
  · have hlen : v.length = (df.rows.zip source.rows).length := omap_length _ _ _ h
    constructor
    · rw [hlen, List.length_zip, hshape.1, Nat.min_self]
    · intro q hq
      rcases omap_mem _ _ _ h q hq with ⟨pr, _, hpr⟩
      exact rowScore_bounds source marg simP df.cols.length pr.1 pr.2 q hshape.2 hpr
  · cases h
    constructor
    · simp
    · intro q hq
      rw [List.eq_of_mem_replicate hq]
      norm_num

/-- `FD._qfn`, characterized by the spec-side grouping functions. -/
theorem fdQfn_eq_spec (source target : List String) (df : DataFrame)
    (pairs : List (List Value × List Value))
    (h : rowPairs df source target = some pairs) :
    fdQfn source target df =
      some (pairs.map (fun p => ((specK pairs p.1 : ℚ) - 1) / (specM pairs : ℚ))) := by
  have h1 : (kvF pairs).1 = specTargets pairs := funext (kvF_fst_eq_specTargets pairs)
  have h2 : (kvF pairs).2 = specM pairs := kvF_snd_eq_specM pairs
  simp only [fdQfn, h, Option.bind_eq_bind, Option.some_bind, h1, h2, specK,
    Option.pure_def]

/-- When defined, `FD._qfn` returns a vector of length `N` with entries
in `[0,1]`. -/
theorem fdQfn_bounds (source target : List String) (df : DataFrame) (v : List ℚ)
    (h : fdQfn source target df = some v) :
    v.length = df.rows.length ∧ ∀ q ∈ v, 0 ≤ q ∧ q ≤ 1 := by
  cases hrp : rowPairs df source target with
  | none => rw [fdQfn, hrp] at h; simp at h
  | some pairs =>
    rw [fdQfn_eq_spec source target df pairs hrp] at h
    injection h with h
    subst h
    constructor
    · rw [List.length_map]
      exact omap_length _ _ _ hrp
    · intro q hq
      rcases List.mem_map.mp hq with ⟨p, hp, hpq⟩
      subst hpq
      exact fd_score_bounds pairs p hp

/-- When defined, `Predicate._qfn` returns a vector of length `N` with
entries in `{0, 0.01, 1} ⊆ [0,1]`. -/
theorem predQfn_bounds (attr : String) (expr : String → Bool) (df : DataFrame)
    (v : List ℚ) (h : predQfn attr expr df = some v) :
    v.length = df.rows.length ∧ ∀ q ∈ v, 0 ≤ q ∧ q ≤ 1 := by
  unfold predQfn at h
  cases hidx : df.cols.indexOf? attr with
  | none => rw [hidx] at h; simp at h
  | some j =>
    rw [hidx] at h
    refine ⟨omap_length _ _ _ h, ?_⟩
    intro q hq
    rcases omap_mem _ _ _ h q hq with ⟨r, _, hr⟩
    cases hg : r.get? j with
    | none => rw [hg] at hr; simp at hr
    | some cell =>
      rw [hg] at hr
      cases cell with
      | none =>
        injection hr with hr
        subst hr
        norm_num
      | some vv =>
        injection hr with hr
        subst hr
        by_cases he : expr vv <;> simp [he]

/-- `Shape._qfn` returns a vector of length `N` with entries in `{0,1}`. -/
theorem shapeQfn_bounds (rows columns : ℕ) (df : DataFrame) :
    (shapeQfn rows columns df).length = df.rows.length ∧
      ∀ q ∈ shapeQfn rows columns df, 0 ≤ q ∧ q ≤ 1 := by
  unfold shapeQfn
  split_ifs <;> refine ⟨by simp, fun q hq => ?_⟩ <;>
    rw [List.eq_of_mem_replicate hq] <;> norm_num

/-- Every leaf `_qfn`, when it returns, returns a vector of length `N` with
entries in `[0,1]`. -/
theorem rawQfn_bounds (e : CExpr) (df : DataFrame) (v : List ℚ)
    (h : rawQfn e df = some v) :
    v.length = df.rows.length ∧ ∀ q ∈ v, 0 ≤ q ∧ q ≤ 1 := by
  cases e with
  | base => simp [rawQfn] at h
  | fd s t => exact fdQfn_bounds s t df v h
  | pred a ex => exact predQfn_bounds a ex df v h
  | dictValue a cb => exact predQfn_bounds a _ df v h
  | shape r c =>
    simp only [rawQfn] at h
    injection h with h
    subst h
    exact shapeQfn_bounds r c df
  | cellEdit src marg simP => exact cellEditRaw_bounds src marg simP df v h
  | add a b => simp [rawQfn] at h
  | mulC a b => simp [rawQfn] at h

/-- The error-catching `qfn` method always returns a vector of length `N`. -/
theorem qfnWrap_raw_length (e : CExpr) (df : DataFrame) :
    (qfnWrap (rawQfn e) df).length = df.rows.length := by
  rw [qfnWrap]
  cases hr : rawQfn e df with
  | none => simp
  | some v => exact (rawQfn_bounds e df v hr).1

/-- The error-catching `qfn` method always returns entries in `[0,1]`. -/
theorem qfnWrap_raw_bounds (e : CExpr) (df : DataFrame) :
    ∀ q ∈ qfnWrap (rawQfn e) df, 0 ≤ q ∧ q ≤ 1 := by
  rw [qfnWrap]
  cases hr : rawQfn e df with
  | none =>
    intro q hq
    rw [List.eq_of_mem_replicate hq]
    norm_num
  | some v => exact (rawQfn_bounds e df v hr).2

/-- Claim helper: every constructible constraint object's `qfn` returns a
vector of length `N = rowCount(df)`. -/
theorem cqfn_length (e : CExpr) (df : DataFrame) :
    (cqfn e df).length = df.rows.length := by
  induction e with
  | add a b iha ihb => rw [cqfn, List.length_zipWith, iha, ihb, Nat.min_self]
  | mulC a b iha ihb => rw [cqfn, List.length_zipWith, iha, ihb, Nat.min_self]
  | base => rw [cqfn]; exact qfnWrap_raw_length _ df
  | fd s t => rw [cqfn]; exact qfnWrap_raw_length _ df
  | pred a ex => rw [cqfn]; exact qfnWrap_raw_length _ df
  | dictValue a cb => rw [cqfn]; exact qfnWrap_raw_length _ df
  | shape r c => rw [cqfn]; exact qfnWrap_raw_length _ df
  | cellEdit src marg simP => rw [cqfn]; exact qfnWrap_raw_length _ df

/-- Claim helper: every constructible constraint object's `qfn` has all its
entries in `[0,1]`. -/
theorem cqfn_bounds (e : CExpr) (df : DataFrame) :
    ∀ q ∈ cqfn e df, 0 ≤ q ∧ q ≤ 1 := by
  induction e with
  | add a b iha ihb =>
    intro q hq
    rw [cqfn] at hq
    rcases mem_zipWith _ _ _ _ hq with ⟨x, y, hx, hy, hxy⟩
    subst hxy
    rcases iha x hx with ⟨hx0, hx1⟩
    rcases ihb y hy with ⟨hy0, hy1⟩
    constructor <;> linarith
  | mulC a b iha ihb =>
    intro q hq
    rw [cqfn] at hq
    rcases mem_zipWith _ _ _ _ hq with ⟨x, y, hx, hy, hxy⟩
    subst hxy
    rcases iha x hx with ⟨hx0, hx1⟩
    rcases ihb y hy with ⟨hy0, hy1⟩
    exact ⟨le_max_of_le_left hx0, max_le hx1 hy1⟩
  | base => rw [cqfn]; exact qfnWrap_raw_bounds _ df
  | fd s t => rw [cqfn]; exact qfnWrap_raw_bounds _ df
  | pred a ex => rw [cqfn]; exact qfnWrap_raw_bounds _ df
  | dictValue a cb => rw [cqfn]; exact qfnWrap_raw_bounds _ df
  | shape r c => rw [cqfn]; exact qfnWrap_raw_bounds _ df
  | cellEdit src marg simP => rw [cqfn]; exact qfnWrap_raw_bounds _ df

/-! ## The search engine (search.py:127-203)

The transformation operations and their sampler live in the external
`generators` module (not part of this repository's sources); they are
modelled from the spec's interface description (§3 "Operation", §6).
-/

/-- Modelled from the spec: an `Operation` of the external `generators`
module exposes a `name` (cache key), a `depth` cost used in pruning, and a
possibly-failing `run : table → table` (spec §6). -/
structure Op where
  name : String
  depth : ℚ
  run : DataFrame → Option DataFrame

/-- Modelled from the spec: `NOOP()` is the neutral identity operation
(spec §3: "a neutral identity operation (NOOP) exists such that composing
with it is a no-op"); the identity transformation costs no search depth. -/
def NOOP : Op :=
  ⟨"NOOP", 0, fun t => some t⟩

/-- Modelled from the spec: `op1 * op2` is sequential composition
(left-to-right, spec §3), with the accumulated depth cost (spec §4.3
"accumulated operation depth"). -/
def opMul (a b : Op) : Op :=
  ⟨a.name ++ " * " ++ b.name, a.depth + b.depth, fun t => (a.run t).bind b.run⟩

/-- `pruningRules` (search.py:195-203): a candidate table with zero columns
or zero rows is structurally invalid. -/
def pruningRules (output : DataFrame) : Bool :=
  if output.cols.length = 0 then true
  else if output.rows.length = 0 then true
  else false

/-- One scored candidate, as recorded for the analysis: the candidate table,
its combined score `n` (search.py:185), and the value of `best[0]` at the
moment the candidate was scored. -/
structure TraceEntry where
  output : DataFrame
  n : ℚ
  bestBefore : ℚ
  deriving DecidableEq

/-- The loop state of `treeSearch`: `best = (score, composed op, table)`
(search.py:139), the `branch_hash` visited set seeded with the serialized
values of the original table (search.py:141-143, the "hash" is modelled by
the row matrix itself), and the `bad_op_cache` (search.py:145).  `trace` and
`pruned` are ghost fields recording, respectively, every candidate that was
scored and every round skipped by the inflation prune; they instrument the
embedding and influence nothing. -/
structure SearchState where
  best : ℚ × Op × DataFrame
  branchHash : List (List (List Value))
  badOps : List String
  trace : List TraceEntry
  pruned : List ℕ

/-- The combined score of a candidate (search.py:185):
`n = (np.sum(costEval) + editCost*np.sum(efn(output)))/output.shape[0]`. -/
def score (costQ efn : DataFrame → List ℚ) (editCost : ℚ)
    (output : DataFrame) : ℚ :=
  ((costQ output).sum + editCost * (efn output).sum) / (output.rows.length : ℚ)

/-- The body of the inner `for l, opbranch in enumerate(...)` loop
(search.py:162-188): skip cached-bad names; run the operation, caching its
name on failure; discard structurally invalid outputs; otherwise score the
output and replace `best` when `n < best[0]`. -/
def stepOpRun (efn costQ : DataFrame → List ℚ) (editCost : ℚ) (op : Op)
    (st : SearchState) (opbranch : Op) : Option DataFrame → SearchState
  | none => { st with badOps := opbranch.name :: st.badOps }
  | some output =>
    if pruningRules output then st
    else if score costQ efn editCost output < st.best.1 then
      { st with
        best := (score costQ efn editCost output, opMul op opbranch, output),
        trace := st.trace ++
          [⟨output, score costQ efn editCost output, st.best.1⟩] }
    else
      { st with trace := st.trace ++
        [⟨output, score costQ efn editCost output, st.best.1⟩] }

def stepOp (efn costQ : DataFrame → List ℚ) (editCost : ℚ) (op : Op)
    (frame : DataFrame) (st : SearchState) (opbranch : Op) : SearchState :=
  if opbranch.name ∈ st.badOps then st
  else stepOpRun efn costQ editCost op st opbranch (opbranch.run frame)

/-- One round of the `for i in range(evaluations)` loop (search.py:147-188):
unpack `best`, test the inflation prune (search.py:152) and, when it does
not fire, fold the inner loop over the sampler's operations for the current
frame.  (The re-computed `costEval` of search.py:160 is dead and pure, and
is omitted.) -/
def stepRound (efn costQ : DataFrame → List ℚ) (sampler : DataFrame → List Op)
    (inflation editCost : ℚ) (st : SearchState) (i : ℕ) : SearchState :=
  if st.best.1 - st.best.2.1.depth > st.best.1 * inflation then
    { st with pruned := st.pruned ++ [i] }
  else
    (sampler st.best.2.2).foldl
      (stepOp efn costQ editCost st.best.2.1 st.best.2.2) st

/-- `treeSearch` (search.py:127-190), returning the full loop state: `efn`
is the quality function of a `CellEdit` built over a copy of the input
table taken before the loop starts (search.py:137), `best` starts at
`(2.0, NOOP(), df)` (search.py:139), and the state is folded through
`evaluations` rounds. -/
def treeSearchS (df : DataFrame) (costFn : CExpr) (sampler : DataFrame → List Op)
    (evaluations : ℕ) (inflation editCost : ℚ) (marg : List (String × MK))
    (simP : SimProvider) : SearchState :=
  (List.range evaluations).foldl
    (stepRound (cellEditQfn df marg simP) (cqfn costFn) sampler inflation editCost)
    { best := (2, NOOP, df),
      branchHash := [df.rows],
      badOps := [],
      trace := [],
      pruned := [] }

/-- `treeSearch`'s return value (search.py:190): `best[1], best[2]`. -/
def treeSearch (df : DataFrame) (costFn : CExpr) (sampler : DataFrame → List Op)
    (evaluations : ℕ) (inflation editCost : ℚ) (marg : List (String × MK))
    (simP : SimProvider) : Op × DataFrame :=
  ((treeSearchS df costFn sampler evaluations inflation editCost marg simP).best.2.1,
   (treeSearchS df costFn sampler evaluations inflation editCost marg simP).best.2.2)

/-! ### Generic fold invariants for the search loops -/

theorem foldl_invariant {σ α : Type} (f : σ → α → σ) (P : σ → Prop)
    (l : List α) (s : σ) (h : ∀ s' a, a ∈ l → P s' → P (f s' a)) (hs : P s) :
    P (l.foldl f s) := by
  induction l generalizing s with
  | nil => exact hs
  | cons a t ih =>
    simp only [List.foldl_cons]
    exact ih (f s a) (fun s' x hx => h s' x (List.mem_cons_of_mem a hx))
      (h s a (List.mem_cons_self a t) hs)

/-! ### Case analysis of one inner-loop step -/

theorem stepOp_trace_cases (efn costQ : DataFrame → List ℚ) (editCost : ℚ)
    (op : Op) (frame : DataFrame) (st : SearchState) (ob : Op) :
    (stepOp efn costQ editCost op frame st ob).trace = st.trace ∨
    ∃ output, ob.run frame = some output ∧ pruningRules output = false ∧
      (stepOp efn costQ editCost op frame st ob).trace =
        st.trace ++ [⟨output, score costQ efn editCost output, st.best.1⟩] := by
  unfold stepOp
  by_cases h1 : ob.name ∈ st.badOps
  · rw [if_pos h1]; left; rfl
  · rw [if_neg h1]
    cases hrun : ob.run frame with
    | none => left; rfl
    | some output =>
      simp only [stepOpRun]
      by_cases h2 : pruningRules output = true
      · rw [if_pos h2]; left; rfl
      · rw [if_neg h2]
        by_cases h3 : score costQ efn editCost output < st.best.1
        · rw [if_pos h3]
          right
          exact ⟨output, rfl, Bool.not_eq_true _ ▸ h2, rfl⟩
        · rw [if_neg h3]
          right
          exact ⟨output, rfl, Bool.not_eq_true _ ▸ h2, rfl⟩

theorem stepOp_best_cases (efn costQ : DataFrame → List ℚ) (editCost : ℚ)
    (op : Op) (frame : DataFrame) (st : SearchState) (ob : Op) :
    (stepOp efn costQ editCost op frame st ob).best = st.best ∨
    ∃ output, ob.run frame = some output ∧ pruningRules output = false ∧
      score costQ efn editCost output < st.best.1 ∧
      (stepOp efn costQ editCost op frame st ob).best =
        (score costQ efn editCost output, opMul op ob, output) ∧
      (stepOp efn costQ editCost op frame st ob).trace =
        st.trace ++ [⟨output, score costQ efn editCost output, st.best.1⟩] := by
  unfold stepOp
  by_cases h1 : ob.name ∈ st.badOps
  · rw [if_pos h1]; left; rfl
  · rw [if_neg h1]
    cases hrun : ob.run frame with
    | none => left; rfl
    | some output =>
      simp only [stepOpRun]
      by_cases h2 : pruningRules output = true
      · rw [if_pos h2]; left; rfl
      · rw [if_neg h2]
        by_cases h3 : score costQ efn editCost output < st.best.1
        · rw [if_pos h3]
          right
          exact ⟨output, rfl, Bool.not_eq_true _ ▸ h2, h3, rfl, rfl⟩
        · rw [if_neg h3]; left; rfl

theorem stepOp_branchHash (efn costQ : DataFrame → List ℚ) (editCost : ℚ)
    (op : Op) (frame : DataFrame) (st : SearchState) (ob : Op) :
    (stepOp efn costQ editCost op frame st ob).branchHash = st.branchHash := by
  unfold stepOp
  by_cases h1 : ob.name ∈ st.badOps
  · rw [if_pos h1]
  · rw [if_neg h1]
    cases hrun : ob.run frame with
    | none => rfl
    | some output =>
      simp only [stepOpRun]
      by_cases h2 : pruningRules output = true
      · rw [if_pos h2]
      · rw [if_neg h2]
        by_cases h3 : score costQ efn editCost output < st.best.1
        · rw [if_pos h3]
        · rw [if_neg h3]

theorem stepOp_pruned (efn costQ : DataFrame → List ℚ) (editCost : ℚ)
    (op : Op) (frame : DataFrame) (st : SearchState) (ob : Op) :
    (stepOp efn costQ editCost op frame st ob).pruned = st.pruned := by
  unfold stepOp
  by_cases h1 : ob.name ∈ st.badOps
  · rw [if_pos h1]
  · rw [if_neg h1]
    cases hrun : ob.run frame with
    | none => rfl
    | some output =>
      simp only [stepOpRun]
      by_cases h2 : pruningRules output = true
      · rw [if_pos h2]
      · rw [if_neg h2]
        by_cases h3 : score costQ efn editCost output < st.best.1
        · rw [if_pos h3]
        · rw [if_neg h3]

theorem stepOp_trace_mono (efn costQ : DataFrame → List ℚ) (editCost : ℚ)
    (op : Op) (frame : DataFrame) (st : SearchState) (ob : Op) :
    ∀ e ∈ st.trace, e ∈ (stepOp efn costQ editCost op frame st ob).trace := by
  intro e he
  rcases stepOp_trace_cases efn costQ editCost op frame st ob with h | ⟨o, _, _, h⟩
  · rw [h]; exact he
  · rw [h]; exact List.mem_append_left _ he

/-! ### Round-level invariants -/

theorem stepRound_branchHash (efn costQ : DataFrame → List ℚ)
    (sampler : DataFrame → List Op) (inflation editCost : ℚ)
    (st : SearchState) (i : ℕ) :
    (stepRound efn costQ sampler inflation editCost st i).branchHash =
      st.branchHash := by
  unfold stepRound
  split_ifs with h
  · rfl
  · exact foldl_invariant (stepOp efn costQ editCost st.best.2.1 st.best.2.2)
      (fun s => s.branchHash = st.branchHash) (sampler st.best.2.2) st
      (fun s' a _ hs => by
        show (stepOp efn costQ editCost st.best.2.1 st.best.2.2 s' a).branchHash
          = st.branchHash
        rw [stepOp_branchHash]
        exact hs) rfl

theorem stepRound_trace_mono (efn costQ : DataFrame → List ℚ)
    (sampler : DataFrame → List Op) (inflation editCost : ℚ)
    (st : SearchState) (i : ℕ) :
    ∀ e ∈ st.trace, e ∈ (stepRound efn costQ sampler inflation editCost st i).trace := by
  intro e he
  unfold stepRound
  split_ifs with h
  · exact he
  · exact foldl_invariant (stepOp efn costQ editCost st.best.2.1 st.best.2.2)
      (fun s => e ∈ s.trace) (sampler st.best.2.2) st
      (fun s' a _ hs => stepOp_trace_mono _ _ _ _ _ s' a e hs) he

/-- A per-step property of scored trace entries lifts to the whole run. -/
theorem treeSearchS_trace_invariant (df : DataFrame) (costFn : CExpr)
    (sampler : DataFrame → List Op) (evaluations : ℕ) (inflation editCost : ℚ)
    (marg : List (String × MK)) (simP : SimProvider) (Q : TraceEntry → Prop)
    (hQ : ∀ (st : SearchState) (output : DataFrame),
      pruningRules output = false →
      Q ⟨output, score (cqfn costFn) (cellEditQfn df marg simP) editCost output,
        st.best.1⟩) :
    ∀ e ∈ (treeSearchS df costFn sampler evaluations inflation editCost marg simP).trace,
      Q e := by
  unfold treeSearchS
  refine foldl_invariant
    (stepRound (cellEditQfn df marg simP) (cqfn costFn) sampler inflation editCost)
    (fun s => ∀ e ∈ s.trace, Q e) (List.range evaluations) _
    ?_ (by intro e he; simp at he)
  intro s' i _ hs
  unfold stepRound
  split_ifs with h
  · exact hs
  · refine foldl_invariant
      (stepOp (cellEditQfn df marg simP) (cqfn costFn) editCost s'.best.2.1 s'.best.2.2)
      (fun s => ∀ e ∈ s.trace, Q e) (sampler s'.best.2.2) s' ?_ hs
    intro s'' ob _ hs''
    intro e he
    rcases stepOp_trace_cases (cellEditQfn df marg simP) (cqfn costFn) editCost
        s'.best.2.1 s'.best.2.2 s'' ob with hc | ⟨o, _, hp, hc⟩
    · rw [hc] at he
      exact hs'' e he
    · rw [hc] at he
      rcases List.mem_append.mp he with h1 | h2
      · exact hs'' e h1
      · rw [List.mem_singleton.mp h2]
        exact hQ s'' o hp

/-- The visited set of a `treeSearch` run never changes after being seeded
with the original table: it is written once and never consulted. -/
theorem treeSearchS_branchHash (df : DataFrame) (costFn : CExpr)
    (sampler : DataFrame → List Op) (evaluations : ℕ) (inflation editCost : ℚ)
    (marg : List (String × MK)) (simP : SimProvider) :
    (treeSearchS df costFn sampler evaluations inflation editCost marg simP).branchHash
      = [df.rows] := by
  unfold treeSearchS
  exact foldl_invariant
    (stepRound (cellEditQfn df marg simP) (cqfn costFn) sampler inflation editCost)
    (fun s => s.branchHash = [df.rows]) (List.range evaluations) _
    (fun s' a _ hs => by
      show (stepRound (cellEditQfn df marg simP) (cqfn costFn) sampler inflation
        editCost s' a).branchHash = [df.rows]
      rw [stepRound_branchHash]
      exact hs) rfl

/-- Every scored candidate's `n` is the combined score of its output, with
the fidelity term taken against the snapshot of the original table, and its
output passed the structural pruning rule. -/
theorem treeSearchS_trace_spec (df : DataFrame) (costFn : CExpr)
    (sampler : DataFrame → List Op) (evaluations : ℕ) (inflation editCost : ℚ)
    (marg : List (String × MK)) (simP : SimProvider) :
    ∀ e ∈ (treeSearchS df costFn sampler evaluations inflation editCost marg simP).trace,
      e.n = score (cqfn costFn) (cellEditQfn df marg simP) editCost e.output ∧
      pruningRules e.output = false := by
  exact treeSearchS_trace_invariant df costFn sampler evaluations inflation editCost
    marg simP
    (fun e => e.n = score (cqfn costFn) (cellEditQfn df marg simP) editCost e.output ∧
      pruningRules e.output = false)
    (fun st output hp => ⟨rfl, hp⟩)

/-! ### Bounds on the combined score -/

theorem cellEditQfn_length (source : DataFrame) (marg : List (String × MK))
    (simP : SimProvider) (df : DataFrame) :
    (cellEditQfn source marg simP df).length = df.rows.length := by
  unfold cellEditQfn qfnWrap
  cases hr : cellEditRaw source marg simP df with
  | none => simp
  | some v => exact (cellEditRaw_bounds source marg simP df v hr).1

theorem cellEditQfn_bounds (source : DataFrame) (marg : List (String × MK))
    (simP : SimProvider) (df : DataFrame) :
    ∀ q ∈ cellEditQfn source marg simP df, 0 ≤ q ∧ q ≤ 1 := by
  unfold cellEditQfn qfnWrap
  cases hr : cellEditRaw source marg simP df with
  | none =>
    intro q hq
    rw [List.eq_of_mem_replicate hq]
    norm_num
  | some v => exact (cellEditRaw_bounds source marg simP df v hr).2

theorem pruningRules_false (output : DataFrame)
    (h : pruningRules output = false) :
    output.cols.length ≠ 0 ∧ output.rows.length ≠ 0 := by
  unfold pruningRules at h
  split_ifs at h with h1 h2
  exact ⟨h1, h2⟩

/-- A bounded-sum bound: for scored candidates (which pass the structural
prune), `0 ≤ n` and `n ≤ 1 + editCost` whenever `editCost ≥ 0`. -/
theorem score_bounds (costFn : CExpr) (df₀ : DataFrame)
    (marg : List (String × MK)) (simP : SimProvider) (editCost : ℚ)
    (output : DataFrame) (he : 0 ≤ editCost) (hN : output.rows.length ≠ 0) :
    0 ≤ score (cqfn costFn) (cellEditQfn df₀ marg simP) editCost output ∧
      score (cqfn costFn) (cellEditQfn df₀ marg simP) editCost output
        ≤ 1 + editCost := by
  have hNQ : (0 : ℚ) < (output.rows.length : ℚ) := by
    have : 0 < output.rows.length := Nat.pos_of_ne_zero hN
    exact_mod_cast this
  have hb1 := cqfn_bounds costFn output
  have hl1 := cqfn_length costFn output
  have hb2 := cellEditQfn_bounds df₀ marg simP output
  have hl2 := cellEditQfn_length df₀ marg simP output
  have hs1lo : 0 ≤ (cqfn costFn output).sum :=
    sum_list_nonneg _ (fun x hx => (hb1 x hx).1)
  have hs1hi : (cqfn costFn output).sum ≤ (output.rows.length : ℚ) := by
    have := sum_list_le (cqfn costFn output) 1 (fun x hx => (hb1 x hx).2)
    rw [hl1] at this
    linarith
  have hs2lo : 0 ≤ (cellEditQfn df₀ marg simP output).sum :=
    sum_list_nonneg _ (fun x hx => (hb2 x hx).1)
  have hs2hi : (cellEditQfn df₀ marg simP output).sum ≤ (output.rows.length : ℚ) := by
    have := sum_list_le (cellEditQfn df₀ marg simP output) 1 (fun x hx => (hb2 x hx).2)
    rw [hl2] at this
    linarith
  unfold score
  constructor
  · apply div_nonneg _ hNQ.le
    nlinarith
  · rw [div_le_iff₀ hNQ]
    nlinarith

/-- If no scored candidate ever beat the `best` value current at its scoring,
the loop state still holds the initial `(2.0, NOOP, df)`. -/
theorem treeSearchS_best_of_no_improvement (df : DataFrame) (costFn : CExpr)
    (sampler : DataFrame → List Op) (evaluations : ℕ) (inflation editCost : ℚ)
    (marg : List (String × MK)) (simP : SimProvider)
    (H : ∀ e ∈ (treeSearchS df costFn sampler evaluations inflation editCost
      marg simP).trace, ¬ e.n < e.bestBefore) :
    (treeSearchS df costFn sampler evaluations inflation editCost marg simP).best
      = (2, NOOP, df) := by
  have key : (treeSearchS df costFn sampler evaluations inflation editCost
        marg simP).best = (2, NOOP, df) ∨
      ∃ e ∈ (treeSearchS df costFn sampler evaluations inflation editCost
        marg simP).trace, e.n < e.bestBefore := by
    unfold treeSearchS
    refine foldl_invariant
      (stepRound (cellEditQfn df marg simP) (cqfn costFn) sampler inflation editCost)
      (fun s => s.best = (2, NOOP, df) ∨ ∃ e ∈ s.trace, e.n < e.bestBefore)
      (List.range evaluations) _ ?_ (Or.inl rfl)
    intro s' i _ hs
    show (stepRound (cellEditQfn df marg simP) (cqfn costFn) sampler inflation
        editCost s' i).best = (2, NOOP, df) ∨
      ∃ e ∈ (stepRound (cellEditQfn df marg simP) (cqfn costFn) sampler inflation
        editCost s' i).trace, e.n < e.bestBefore
    unfold stepRound
    split_ifs with h
    · exact hs
    · refine foldl_invariant
        (stepOp (cellEditQfn df marg simP) (cqfn costFn) editCost s'.best.2.1
          s'.best.2.2)
        (fun s => s.best = (2, NOOP, df) ∨ ∃ e ∈ s.trace, e.n < e.bestBefore)
        (sampler s'.best.2.2) s' ?_ hs
      intro s'' ob _ hs''
      show (stepOp (cellEditQfn df marg simP) (cqfn costFn) editCost s'.best.2.1
          s'.best.2.2 s'' ob).best = (2, NOOP, df) ∨
        ∃ e ∈ (stepOp (cellEditQfn df marg simP) (cqfn costFn) editCost s'.best.2.1
          s'.best.2.2 s'' ob).trace, e.n < e.bestBefore
      rcases stepOp_best_cases (cellEditQfn df marg simP) (cqfn costFn) editCost
          s'.best.2.1 s'.best.2.2 s'' ob with hb | ⟨o, _, _, himp, _, htr⟩
      · rcases hs'' with h1 | ⟨e, he, hlt⟩
        · left; rw [hb, h1]
        · right
          exact ⟨e, stepOp_trace_mono _ _ _ _ _ s'' ob e he, hlt⟩
      · right
        refine ⟨⟨o, score (cqfn costFn) (cellEditQfn df marg simP) editCost o,
          s''.best.1⟩, ?_, himp⟩
        rw [htr]
        exact List.mem_append_right _ (List.mem_singleton_self _)
  rcases key with h | ⟨e, he, hlt⟩
  · exact h
  · exact absurd hlt (H e he)

/-- Under `inflation ≥ 1`, non-negative sampled depths and a non-negative
edit cost, the prune-by-inflation branch never fires: the test compares
`best[0] - best_op.depth` against `best[0] * inflation` on the same `best`. -/
theorem treeSearchS_pruned_empty (df : DataFrame) (costFn : CExpr)
    (sampler : DataFrame → List Op) (evaluations : ℕ) (inflation editCost : ℚ)
    (marg : List (String × MK)) (simP : SimProvider)
    (hγ : 1 ≤ inflation) (he : 0 ≤ editCost)
    (hd : ∀ f o, o ∈ sampler f → 0 ≤ o.depth) :
    (treeSearchS df costFn sampler evaluations inflation editCost marg simP).pruned
      = [] := by
  have key : (treeSearchS df costFn sampler evaluations inflation editCost
        marg simP).pruned = [] ∧
      0 ≤ (treeSearchS df costFn sampler evaluations inflation editCost
        marg simP).best.1 ∧
      0 ≤ (treeSearchS df costFn sampler evaluations inflation editCost
        marg simP).best.2.1.depth := by
    unfold treeSearchS
    refine foldl_invariant
      (stepRound (cellEditQfn df marg simP) (cqfn costFn) sampler inflation editCost)
      (fun s => s.pruned = [] ∧ 0 ≤ s.best.1 ∧ 0 ≤ s.best.2.1.depth)
      (List.range evaluations) _ ?_ ⟨rfl, by norm_num, le_refl 0⟩
    intro s' i _ hs
    rcases hs with ⟨hpr, hv, hdep⟩
    show (stepRound (cellEditQfn df marg simP) (cqfn costFn) sampler inflation
        editCost s' i).pruned = [] ∧
      0 ≤ (stepRound (cellEditQfn df marg simP) (cqfn costFn) sampler inflation
        editCost s' i).best.1 ∧
      0 ≤ (stepRound (cellEditQfn df marg simP) (cqfn costFn) sampler inflation
        editCost s' i).best.2.1.depth
    unfold stepRound
    split_ifs with h
    · exact absurd h (by push_neg; nlinarith)
    · refine foldl_invariant
        (stepOp (cellEditQfn df marg simP) (cqfn costFn) editCost s'.best.2.1
          s'.best.2.2)
        (fun s => s.pruned = [] ∧ 0 ≤ s.best.1 ∧ 0 ≤ s.best.2.1.depth)
        (sampler s'.best.2.2) s' ?_ ⟨hpr, hv, hdep⟩
      intro s'' ob hob hs''
      rcases hs'' with ⟨hpr'', hv'', hdep''⟩
      refine ⟨?_, ?_⟩
      · show (stepOp (cellEditQfn df marg simP) (cqfn costFn) editCost s'.best.2.1
            s'.best.2.2 s'' ob).pruned = []
        rw [stepOp_pruned]
        exact hpr''
      · rcases stepOp_best_cases (cellEditQfn df marg simP) (cqfn costFn) editCost
            s'.best.2.1 s'.best.2.2 s'' ob with hb | ⟨o, _, hp, _, hb, _⟩
        · rw [hb]
          exact ⟨hv'', hdep''⟩
        · rw [hb]
          constructor
          · exact (score_bounds costFn df marg simP editCost o he
              (pruningRules_false o hp).2).1
          · show 0 ≤ (opMul s'.best.2.1 ob).depth
            unfold opMul
            have := hd s'.best.2.2 ob hob
            simp only
            linarith
  exact key.1

/-! ### Attribute accessors for the algebra claims -/

/-- `true` when the constraint object exists and exposes both `hint` and
`hintParams`. -/
def hasAttrsB (e : CExpr) : Bool :=
  match attrsOf e with
  | some (some _, some _) => true
  | _ => false

/-- The object's `hint` set (junk `∅` when missing). -/
def hintGet (e : CExpr) : Finset String :=
  match attrsOf e with
  | some (some h, _) => h
  | _ => ∅

/-- Lookup of key `k` in the object's `hintParams` dictionary. -/
def hpGet (e : CExpr) (k : String) : Option (List String) :=
  match attrsOf e with
  | some (_, some p) => p k
  | _ => none

/-- `true` when the object exists but its `hintParams` attribute is
missing (reading it raises `AttributeError`). -/
def hpMissingB (e : CExpr) : Bool :=
  match attrsOf e with
  | some (_, none) => true
  | _ => false

theorem zipWith_get?_some (f : ℚ → ℚ → ℚ) :
    ∀ (A B : List ℚ) (i : ℕ) (x y : ℚ), A.get? i = some x → B.get? i = some y →
      (List.zipWith f A B).get? i = some (f x y) := by
  intro A
  induction A with
  | nil => intro B i x y hx; simp at hx
  | cons a as ih =>
    intro B i x y hx hy
    cases B with
    | nil => simp at hy
    | cons b bs =>
      cases i with
      | zero =>
        simp only [List.get?] at hx hy
        injection hx with hx
        injection hy with hy
        subst hx; subst hy
        rfl
      | succ j =>
        simp only [List.get?] at hx hy
        simpa using ih bs j x y hx hy

/-! ### Success of the FD projections on well-formed tables -/

theorem indexOf?_of_mem (l : List String) (c : String) (hc : c ∈ l) :
    ∃ j, l.indexOf? c = some j ∧ j < l.length := by
  induction l with
  | nil => simp at hc
  | cons x xs ih =>
    rw [List.indexOf?_cons]
    by_cases h : x = c
    · refine ⟨0, ?_, by simp⟩
      simp [h]
    · have hc' : c ∈ xs := by
        rcases List.mem_cons.mp hc with h1 | h2
        · exact absurd h1.symm h
        · exact h2
      rcases ih hc' with ⟨j, hj, hjl⟩
      refine ⟨j + 1, ?_, by simp; omega⟩
      have hbeq : (x == c) = false := by
        simp [h]
      rw [hbeq]
      simp [hj]

theorem omap_isSome {α β : Type} (f : α → Option β) :
    ∀ (l : List α), (∀ a ∈ l, ∃ b, f a = some b) → ∃ l', omap f l = some l' := by
  intro l
  induction l with
  | nil => intro _; exact ⟨[], rfl⟩
  | cons a t ih =>
    intro h
    rcases h a (List.mem_cons_self a t) with ⟨b, hb⟩
    rcases ih (fun x hx => h x (List.mem_cons_of_mem a hx)) with ⟨t', ht⟩
    refine ⟨b :: t', ?_⟩
    simp only [omap, hb, ht]

theorem projT_some (df : DataFrame) (cs : List String) (r : List Value)
    (hc : ∀ c ∈ cs, c ∈ df.cols) (hlen : r.length = df.cols.length) :
    ∃ v, projT df cs r = some v := by
  unfold projT
  apply omap_isSome
  intro c hcc
  rcases indexOf?_of_mem df.cols c (hc c hcc) with ⟨j, hj, hjl⟩
  rw [hj]
  have hjr : j < r.length := by omega
  rcases List.get?_eq_get hjr with h
  exact ⟨r.get ⟨j, hjr⟩, by simp [h]⟩

theorem rowPairs_some (df : DataFrame) (source target : List String)
    (hwf : ∀ r ∈ df.rows, r.length = df.cols.length)
    (hs : ∀ c ∈ source, c ∈ df.cols) (ht : ∀ c ∈ target, c ∈ df.cols) :
    ∃ pairs, rowPairs df source target = some pairs := by
  unfold rowPairs
  apply omap_isSome
  intro r hr
  rcases projT_some df source r hs (hwf r hr) with ⟨s, hsv⟩
  rcases projT_some df target r ht (hwf r hr) with ⟨t, htv⟩
  exact ⟨(s, t), by simp [hsv, htv]⟩

/-! ## Concrete instances used for witnesses and counterexamples -/

/-- A 1-row, 1-column table. -/
def dfA : DataFrame := ⟨["a"], [[some "x"]]⟩

/-- A 2-row, 1-column table (a different shape from `dfA`). -/
def dfB : DataFrame := ⟨["a"], [[some "x"], [some "y"]]⟩

/-- A 3-row, 2-column table whose first source value maps to two distinct
target values. -/
def dfW : DataFrame :=
  ⟨["A", "B"],
   [[some "a1", some "b1"], [some "a1", some "b2"], [some "a2", some "b1"]]⟩

/-- An operation that replaces any table by the 2-row table `dfB`. -/
def growOp : Op := ⟨"grow", 0, fun _ => some dfB⟩

/-- An operation that returns its input unchanged. -/
def idOp : Op := ⟨"id", 0, fun t => some t⟩

def samplerGrow : DataFrame → List Op := fun _ => [growOp]

def samplerId : DataFrame → List Op := fun _ => [idOp]

def samplerEmpty : DataFrame → List Op := fun _ => []

/-- An embedding provider with no known tokens. -/
def simNone : SimProvider :=
  ⟨fun _ _ => none, fun _ _ _ h => by cases h⟩

theorem NOOP_depth : NOOP.depth = 0 := rfl

theorem NOOP_name : NOOP.name = "NOOP" := rfl

theorem idOp_name : idOp.name = "id" := rfl

theorem idOp_run (t : DataFrame) : idOp.run t = some t := rfl

theorem idOp_depth : idOp.depth = 0 := rfl

theorem growOp_name : growOp.name = "grow" := rfl

theorem growOp_run (t : DataFrame) : growOp.run t = some dfB := rfl

theorem samplerId_eval (t : DataFrame) : samplerId t = [idOp] := rfl

theorem samplerGrow_eval (t : DataFrame) : samplerGrow t = [growOp] := rfl

theorem samplerEmpty_eval (t : DataFrame) : samplerEmpty t = [] := rfl

/-- The base constraint's `qfn` is the all-ones fallback on every table. -/
theorem cqfn_base_eval (df : DataFrame) :
    cqfn CExpr.base df = List.replicate df.rows.length 1 := rfl

/-- Fidelity of the 1-row table against itself: all cells equal, score 0. -/
theorem efn_dfA_dfA : cellEditQfn dfA [] simNone dfA = [0] := by
  norm_num [cellEditQfn, qfnWrap, cellEditRaw, dfA, omap, rowScore, cellContrib,
    pyStr, mfOf, List.range_succ]

/-- Fidelity of the 2-row table against the 1-row snapshot: shape mismatch,
all ones. -/
theorem efn_dfA_dfB : cellEditQfn dfA [] simNone dfB = [1, 1] := by
  norm_num [cellEditQfn, qfnWrap, cellEditRaw, dfA, dfB, List.replicate]

theorem pruningRules_dfA : pruningRules dfA = false := rfl

theorem pruningRules_dfB : pruningRules dfB = false := rfl

theorem score_id_dfA :
    score (cqfn CExpr.base) (cellEditQfn dfA [] simNone) 1 dfA = 1 := by
  rw [score, cqfn_base_eval, efn_dfA_dfA]
  norm_num [dfA, List.replicate]

theorem score_grow_e1 :
    score (cqfn CExpr.base) (cellEditQfn dfA [] simNone) 1 dfB = 2 := by
  rw [score, cqfn_base_eval, efn_dfA_dfB]
  norm_num [dfB, List.replicate]

theorem score_grow_e0 :
    score (cqfn CExpr.base) (cellEditQfn dfA [] simNone) 0 dfB = 1 := by
  rw [score, cqfn_base_eval, efn_dfA_dfB]
  norm_num [dfB, List.replicate]

/-- The identity-operation run, one round: the original table is re-scored
(`n = 1`) and even replaces `best`. -/
theorem runId1 :
    treeSearchS dfA CExpr.base samplerId 1 1 1 [] simNone =
      { best := (1, opMul NOOP idOp, dfA),
        branchHash := [dfA.rows], badOps := [],
        trace := [⟨dfA, 1, 2⟩], pruned := [] } := by
  norm_num [treeSearchS, stepRound, stepOp, stepOpRun, samplerId_eval,
    idOp_name, idOp_run, NOOP_depth, pruningRules_dfA, score_id_dfA,
    List.range_succ]

/-- The zero-round run: the state is exactly the seeded initial state. -/
theorem runId0 :
    treeSearchS dfA CExpr.base samplerId 0 1 1 [] simNone =
      { best := (2, NOOP, dfA),
        branchHash := [dfA.rows], badOps := [],
        trace := [], pruned := [] } := rfl

/-- The empty-sampler run: nothing is ever scored. -/
theorem runEmpty2 :
    treeSearchS dfA CExpr.base samplerEmpty 2 1 1 [] simNone =
      { best := (2, NOOP, dfA),
        branchHash := [dfA.rows], badOps := [],
        trace := [], pruned := [] } := by
  norm_num [treeSearchS, stepRound, samplerEmpty_eval, NOOP_depth,
    List.range_succ]

/-- The grow-operation run with `editCost = 1`: the candidate scores exactly
2.0 and does not replace the sentinel. -/
theorem runGrow1 :
    treeSearchS dfA CExpr.base samplerGrow 1 1 1 [] simNone =
      { best := (2, NOOP, dfA),
        branchHash := [dfA.rows], badOps := [],
        trace := [⟨dfB, 2, 2⟩], pruned := [] } := by
  norm_num [treeSearchS, stepRound, stepOp, stepOpRun, samplerGrow_eval,
    growOp_name, growOp_run, NOOP_depth, pruningRules_dfB, score_grow_e1,
    List.range_succ]

/-- The grow-operation run with `editCost = 0`: the candidate scores 1 and
replaces the sentinel. -/
theorem runGrow0 :
    treeSearchS dfA CExpr.base samplerGrow 1 1 0 [] simNone =
      { best := (1, opMul NOOP growOp, dfB),
        branchHash := [dfA.rows], badOps := [],
        trace := [⟨dfB, 1, 2⟩], pruned := [] } := by
  norm_num [treeSearchS, stepRound, stepOp, stepOpRun, samplerGrow_eval,
    growOp_name, growOp_run, NOOP_depth, pruningRules_dfB, score_grow_e0,
    List.range_succ]

/-! ## Claim theorems -/

/-- C1: for every constraint object constructible from this module and every
table with `N` rows, `qfn` returns a vector of length `N` with every entry in
`[0,1]`; and whenever the underlying `_qfn` raises, the `qfn` wrapper returns
the all-ones vector of length `N` instead of propagating the error. -/
theorem claim_C1_qfn_total_bounded (e : CExpr) (df : DataFrame) :
    (cqfn e df).length = df.rows.length ∧
    (∀ q ∈ cqfn e df, 0 ≤ q ∧ q ≤ 1) ∧
    (∀ raw : DataFrame → Option (List ℚ), raw df = none →
      qfnWrap raw df = List.replicate df.rows.length 1) :=
  ⟨cqfn_length e df, cqfn_bounds e df, fun raw h => qfnWrap_none raw df h⟩

theorem claim_C1_witness :
    (cqfn CExpr.base dfA).length = dfA.rows.length ∧
    ((1 : ℚ) ∈ cqfn CExpr.base dfA ∧ (0 ≤ (1 : ℚ) ∧ (1 : ℚ) ≤ 1)) :=
  ⟨(claim_C1_qfn_total_bounded CExpr.base dfA).1,
   by decide,
   (claim_C1_qfn_total_bounded CExpr.base dfA).2.1 1 (by decide)⟩

/-- C3: `OneToOne(A,B) = FD(A→B)*FD(B→A)` is not a well-formed constraint:
`FD.__init__` never calls `Constraint.__init__`, so an FD object has no
`hintParams` attribute and the `except` branch of `__mul__` raises
`AttributeError` while copying it (`attrsOf` returns `none`). -/
theorem claim_C3_onetoone_raises :
    attrsOf (OneToOne ["A"] ["B"]) = none ∧
      hpMissingB (CExpr.fd ["A"] ["B"]) = true :=
  ⟨rfl, rfl⟩

/-- C5 counterexample: adding two `DictValue` constraints that both carry a
`codebook` hint-parameter keeps the **right** operand's value (Python
`dict.update` overwrites), not the left one's as the claim states. -/
theorem claim_C5_counterexample :
    hpGet (CExpr.add (CExpr.dictValue "x" ["u"]) (CExpr.dictValue "x" ["v"]))
        "codebook" = some ["v"] ∧
      ¬ hpGet (CExpr.add (CExpr.dictValue "x" ["u"]) (CExpr.dictValue "x" ["v"]))
        "codebook" = some ["u"] := by
  constructor
  · rfl
  · intro h
    have : (["v"] : List String) = ["u"] := by
      have h' : hpGet (CExpr.add (CExpr.dictValue "x" ["u"])
          (CExpr.dictValue "x" ["v"])) "codebook" = some ["v"] := rfl
      rw [h'] at h
      exact Option.some.inj h
    simp at this

/-- C5 (amended): for constraints `a`, `b` that both expose `hint` and
`hintParams`, `a + b` is a constraint whose score is the elementwise mean,
whose hint is the union of the hints, and whose hint-parameters are the
union of both maps in which, for every key present in both, the **right**
operand `b`'s value is the one kept. -/
theorem claim_C5_add_combines (a b : CExpr)
    (ha : hasAttrsB a = true) (hb : hasAttrsB b = true) :
    hasAttrsB (CExpr.add a b) = true ∧
    hintGet (CExpr.add a b) = hintGet a ∪ hintGet b ∧
    (∀ k, hpGet (CExpr.add a b) k = (hpGet b k).or (hpGet a k)) ∧
    (∀ (df : DataFrame) (i : ℕ) (x y : ℚ),
      (cqfn a df).get? i = some x → (cqfn b df).get? i = some y →
      (cqfn (CExpr.add a b) df).get? i = some ((x + y) / 2)) := by
  unfold hasAttrsB at ha hb
  cases haa : attrsOf a with
  | none => rw [haa] at ha; simp at ha
  | some pa =>
    cases hab : attrsOf b with
    | none => rw [hab] at hb; simp at hb
    | some pb =>
      rw [haa] at ha
      rw [hab] at hb
      obtain ⟨h1, p1⟩ := pa
      obtain ⟨h2, p2⟩ := pb
      cases h1 with
      | none => simp at ha
      | some h1 =>
        cases p1 with
        | none => simp at ha
        | some p1 =>
          cases h2 with
          | none => simp at hb
          | some h2 =>
            cases p2 with
            | none => simp at hb
            | some p2 =>
              have hco : attrsOf (CExpr.add a b) =
                  some (some (h1 ∪ h2), some (fun k => (p2 k).or (p1 k))) := by
                simp only [attrsOf, haa, hab, Option.bind_eq_bind,
                  Option.some_bind]
                rfl
              refine ⟨?_, ?_, ?_, ?_⟩
              · unfold hasAttrsB
                rw [hco]
              · unfold hintGet
                rw [hco, haa, hab]
              · intro k
                unfold hpGet
                rw [hco, haa, hab]
              · intro df i x y hx hy
                rw [cqfn]
                exact zipWith_get?_some _ _ _ i x y hx hy

theorem claim_C5_witness :
    hasAttrsB (CExpr.dictValue "x" ["u"]) = true ∧
    hasAttrsB CExpr.base = true ∧
    hpGet (CExpr.add (CExpr.dictValue "x" ["u"]) CExpr.base)
      "codebook" = some ["u"] :=
  ⟨rfl, rfl, by
    have h := (claim_C5_add_combines (CExpr.dictValue "x" ["u"])
      CExpr.base rfl rfl).2.2.1 "codebook"
    rw [h]
    rfl⟩

/-- C6: multiplying any constraint by a numeric scalar raises: the `try`
branch of `__mul__` evaluates `other.hint` on a float (`AttributeError`),
and the `except` branch then evaluates the same expression and lets the
error propagate, so no scaled constraint object is ever produced. -/
theorem claim_C6_scalar_mul_raises (self : CExpr) (w : ℚ) :
    constraintMul self (MulArg.scalar w) = none := by
  unfold constraintMul
  simp only [tryFloat]
  have hexc : mulExceptBranch self (MulArg.scalar w) = none := by
    unfold mulExceptBranch
    simp only [argHint]
    cases (attrsOf self).bind Prod.fst <;> rfl
  simp only [argHint, argHP]
  cases hfst : (attrsOf self).bind Prod.fst <;>
    cases hsnd : (attrsOf self).bind Prod.snd <;>
    exact hexc

/-- C4: on a rectangular table whose source and target columns all exist,
`FD._qfn` scores each row `(k-1)/m`, with `k` the number of distinct target
tuples for the row's source tuple and `m` the worst-case group size
(`m ≥ 1` on a non-empty table); if every source tuple maps to exactly one
target tuple the vector is all zeros. -/
theorem claim_C4_fd_scores (source target : List String) (df : DataFrame)
    (hwf : ∀ r ∈ df.rows, r.length = df.cols.length)
    (hs : ∀ c ∈ source, c ∈ df.cols) (ht : ∀ c ∈ target, c ∈ df.cols)
    (hN : df.rows ≠ []) :
    ∃ pairs, rowPairs df source target = some pairs ∧
      pairs.length = df.rows.length ∧
      1 ≤ specM pairs ∧
      fdQfn source target df =
        some (pairs.map (fun p => ((specK pairs p.1 : ℚ) - 1) / (specM pairs : ℚ))) ∧
      ((∀ p ∈ pairs, specK pairs p.1 = 1) →
        fdQfn source target df = some (List.replicate df.rows.length 0)) := by
  rcases rowPairs_some df source target hwf hs ht with ⟨pairs, hp⟩
  have hlen : pairs.length = df.rows.length := omap_length _ _ _ hp
  have hne : pairs ≠ [] := by
    intro h0
    rw [h0] at hlen
    exact hN (List.length_eq_zero.mp hlen.symm)
  obtain ⟨p0, hp0⟩ := List.exists_mem_of_ne_nil pairs hne
  refine ⟨pairs, hp, hlen, one_le_specM pairs p0 hp0,
    fdQfn_eq_spec source target df pairs hp, ?_⟩
  intro hall
  rw [fdQfn_eq_spec source target df pairs hp]
  congr 1
  apply List.eq_replicate_iff.mpr
  constructor
  · rw [List.length_map, hlen]
  · intro q hq
    rcases List.mem_map.mp hq with ⟨p, hpp, hqe⟩
    rw [hall p hpp] at hqe
    rw [← hqe]
    norm_num

theorem claim_C4_witness :
    (∀ r ∈ dfW.rows, r.length = dfW.cols.length) ∧
    fdQfn ["A"] ["B"] dfW = some [1/2, 1/2, 0] := by
  refine ⟨by decide, ?_⟩
  obtain ⟨pairs, h1, _, _, h4, _⟩ := claim_C4_fd_scores ["A"] ["B"] dfW
    (by decide) (by decide) (by decide) (by decide)
  have hpairs : pairs = [([some "a1"], [some "b1"]), ([some "a1"], [some "b2"]),
      ([some "a2"], [some "b1"])] := by
    have hconc : rowPairs dfW ["A"] ["B"] =
        some [([some "a1"], [some "b1"]), ([some "a1"], [some "b2"]),
          ([some "a2"], [some "b1"])] := by decide
    rw [hconc] at h1
    exact (Option.some.inj h1).symm
  subst hpairs
  rw [h4]
  norm_num [List.map,
    show specK [([some "a1"], [some "b1"]), ([some "a1"], [some "b2"]),
      ([some "a2"], [some "b1"])] [some "a1"] = 2 from by decide,
    show specK [([some "a1"], [some "b1"]), ([some "a1"], [some "b2"]),
      ([some "a2"], [some "b1"])] [some "a2"] = 1 from by decide,
    show specM [([some "a1"], [some "b1"]), ([some "a1"], [some "b2"]),
      ([some "a2"], [some "b1"])] = 2 from by decide]

/-- C2: every candidate scored during a `treeSearch` run gets
`n = (sum(ruleQuality(result)) + editCost * sum(fidelityQuality(result)))
/ rowCount(result)`, where the fidelity quality is the `CellEdit` built over
the snapshot of the input table taken at the start of the call. -/
theorem claim_C2_score_formula (df : DataFrame) (costFn : CExpr)
    (sampler : DataFrame → List Op) (evaluations : ℕ) (inflation editCost : ℚ)
    (marg : List (String × MK)) (simP : SimProvider) :
    ∀ e ∈ (treeSearchS df costFn sampler evaluations inflation editCost marg
      simP).trace,
      e.n = ((cqfn costFn e.output).sum +
        editCost * (cellEditQfn df marg simP e.output).sum) /
        (e.output.rows.length : ℚ) := by
  intro e he
  have h := (treeSearchS_trace_spec df costFn sampler evaluations inflation
    editCost marg simP e he).1
  rw [h]
  rfl

theorem claim_C2_witness :
    (⟨dfA, 1, 2⟩ : TraceEntry) ∈
      (treeSearchS dfA CExpr.base samplerId 1 1 1 [] simNone).trace ∧
    (⟨dfA, 1, 2⟩ : TraceEntry).n =
      ((cqfn CExpr.base (⟨dfA, 1, 2⟩ : TraceEntry).output).sum +
        1 * (cellEditQfn dfA [] simNone (⟨dfA, 1, 2⟩ : TraceEntry).output).sum) /
        ((⟨dfA, 1, 2⟩ : TraceEntry).output.rows.length : ℚ) :=
  ⟨by rw [runId1]; exact List.mem_singleton_self _,
   claim_C2_score_formula dfA CExpr.base samplerId 1 1 1 [] simNone
     ⟨dfA, 1, 2⟩ (by rw [runId1]; exact List.mem_singleton_self _)⟩

/-- C7: when no scored candidate's combined score is strictly below the
`best` value current at the time it was scored, `treeSearch` returns the
unmodified input table and the identity operation `NOOP`. -/
theorem claim_C7_noop_when_no_improvement (df : DataFrame) (costFn : CExpr)
    (sampler : DataFrame → List Op) (evaluations : ℕ) (inflation editCost : ℚ)
    (marg : List (String × MK)) (simP : SimProvider)
    (H : ∀ e ∈ (treeSearchS df costFn sampler evaluations inflation editCost
      marg simP).trace, ¬ e.n < e.bestBefore) :
    treeSearch df costFn sampler evaluations inflation editCost marg simP
      = (NOOP, df) := by
  unfold treeSearch
  rw [treeSearchS_best_of_no_improvement df costFn sampler evaluations inflation
    editCost marg simP H]

theorem claim_C7_witness :
    (treeSearchS dfA CExpr.base samplerEmpty 2 1 1 [] simNone).trace = [] ∧
    treeSearch dfA CExpr.base samplerEmpty 2 1 1 [] simNone = (NOOP, dfA) :=
  ⟨by rw [runEmpty2],
   claim_C7_noop_when_no_improvement dfA CExpr.base samplerEmpty 2 1 1 []
     simNone (by intro e he; rw [runEmpty2] at he; simp at he)⟩

/-- C8 counterexample: with `editCost = 1`, a candidate whose rule score and
fidelity score are both all-ones (here: the rule's `_qfn` raises, and the
candidate's shape differs from the reference) scores exactly `2.0`, which is
not strictly below the sentinel, so the first evaluated candidate does not
replace the initial entry. -/
theorem claim_C8_counterexample :
    (treeSearchS dfA CExpr.base samplerGrow 1 1 1 [] simNone).trace.map
      TraceEntry.n = [2] ∧
    (treeSearchS dfA CExpr.base samplerGrow 1 1 1 [] simNone).best.1 = 2 := by
  rw [runGrow1]
  exact ⟨rfl, rfl⟩

/-- C8 (amended): every evaluated candidate's combined score satisfies
`n ≤ 1 + editCost`; in particular when `editCost < 1` every candidate
scores strictly below the sentinel `2.0` (with `editCost ≥ 1` a worst-case
candidate can reach it, as the counterexample shows). -/
theorem claim_C8_score_bound (df : DataFrame) (costFn : CExpr)
    (sampler : DataFrame → List Op) (evaluations : ℕ) (inflation editCost : ℚ)
    (marg : List (String × MK)) (simP : SimProvider) (he : 0 ≤ editCost) :
    ∀ e ∈ (treeSearchS df costFn sampler evaluations inflation editCost marg
      simP).trace,
      e.n ≤ 1 + editCost ∧ (editCost < 1 → e.n < 2) := by
  intro e he'
  obtain ⟨hf, hp⟩ := treeSearchS_trace_spec df costFn sampler evaluations
    inflation editCost marg simP e he'
  have hb := score_bounds costFn df marg simP editCost e.output he
    (pruningRules_false _ hp).2
  rw [hf]
  exact ⟨hb.2, fun h1 => lt_of_le_of_lt hb.2 (by linarith)⟩

theorem claim_C8_witness :
    (0 : ℚ) ≤ 0 ∧
    (⟨dfB, 1, 2⟩ : TraceEntry) ∈
      (treeSearchS dfA CExpr.base samplerGrow 1 1 0 [] simNone).trace ∧
    ((⟨dfB, 1, 2⟩ : TraceEntry).n ≤ 1 + 0 ∧
      ((0 : ℚ) < 1 → (⟨dfB, 1, 2⟩ : TraceEntry).n < 2)) :=
  ⟨le_refl 0, by rw [runGrow0]; exact List.mem_singleton_self _,
   claim_C8_score_bound dfA CExpr.base samplerGrow 1 1 0 [] simNone (le_refl 0)
     ⟨dfB, 1, 2⟩ (by rw [runGrow0]; exact List.mem_singleton_self _)⟩

/-- C9 counterexample: an operation returning the original table unchanged
is scored (and even replaces `best`) although the table's hash was
pre-seeded in the visited set: the set is never consulted. -/
theorem claim_C9_counterexample :
    (treeSearchS dfA CExpr.base samplerId 1 1 1 [] simNone).trace.map
      TraceEntry.output = [dfA] ∧
    dfA.rows ∈ (treeSearchS dfA CExpr.base samplerId 1 1 1 [] simNone).branchHash := by
  rw [runId1]
  exact ⟨rfl, List.mem_singleton_self _⟩

/-- C9 (amended): the visited set holds only the pre-seeded hash of the
original table for the whole run and is never consulted: any sampled
operation that is not in the bad-operation cache, runs successfully and
passes the structural prune is scored, even when its output is the original
(pre-seeded) table itself. -/
theorem claim_C9_visited_unused (df : DataFrame) (costFn : CExpr)
    (sampler : DataFrame → List Op) (evaluations : ℕ) (inflation editCost : ℚ)
    (marg : List (String × MK)) (simP : SimProvider) :
    (treeSearchS df costFn sampler evaluations inflation editCost marg
      simP).branchHash = [df.rows] ∧
    (∀ (efn costQ : DataFrame → List ℚ) (op : Op) (frame : DataFrame)
        (st : SearchState) (ob : Op),
      ob.name ∉ st.badOps → ob.run frame = some df → pruningRules df = false →
      (stepOp efn costQ editCost op frame st ob).trace =
        st.trace ++ [⟨df, score costQ efn editCost df, st.best.1⟩]) := by
  refine ⟨treeSearchS_branchHash df costFn sampler evaluations inflation
    editCost marg simP, ?_⟩
  intro efn costQ op frame st ob h1 h2 h3
  unfold stepOp
  rw [if_neg h1, h2]
  simp only [stepOpRun]
  rw [if_neg (by simp [h3] : ¬ pruningRules df = true)]
  by_cases h4 : score costQ efn editCost df < st.best.1
  · rw [if_pos h4]
  · rw [if_neg h4]

theorem claim_C9_witness :
    idOp.name ∉ (treeSearchS dfA CExpr.base samplerId 0 1 1 [] simNone).badOps ∧
    idOp.run dfA = some dfA ∧ pruningRules dfA = false ∧
    (stepOp (cellEditQfn dfA [] simNone) (cqfn CExpr.base) 1 NOOP dfA
      (treeSearchS dfA CExpr.base samplerId 0 1 1 [] simNone) idOp).trace =
      (treeSearchS dfA CExpr.base samplerId 0 1 1 [] simNone).trace ++
        [⟨dfA, score (cqfn CExpr.base) (cellEditQfn dfA [] simNone) 1 dfA,
          (treeSearchS dfA CExpr.base samplerId 0 1 1 [] simNone).best.1⟩] :=
  ⟨by rw [runId0]; simp, rfl, rfl,
   (claim_C9_visited_unused dfA CExpr.base samplerId 0 1 1 [] simNone).2
     (cellEditQfn dfA [] simNone) (cqfn CExpr.base) NOOP dfA
     (treeSearchS dfA CExpr.base samplerId 0 1 1 [] simNone) idOp
     (by rw [runId0]; simp) rfl rfl⟩

/-- C10: whenever the inflation factor is at least 1, all sampled operation
depths are non-negative and the edit cost is non-negative, the
prune-by-inflation test — which compares `best[0] - best_op.depth` against
`best[0] * inflation` on the very `best` it was unpacked from — never
fires, so no round is skipped. -/
theorem claim_C10_prune_never_fires (df : DataFrame) (costFn : CExpr)
    (sampler : DataFrame → List Op) (evaluations : ℕ) (inflation editCost : ℚ)
    (marg : List (String × MK)) (simP : SimProvider)
    (hγ : 1 ≤ inflation) (he : 0 ≤ editCost)
    (hd : ∀ f o, o ∈ sampler f → 0 ≤ o.depth) :
    (treeSearchS df costFn sampler evaluations inflation editCost marg
      simP).pruned = [] :=
  treeSearchS_pruned_empty df costFn sampler evaluations inflation editCost
    marg simP hγ he hd

theorem claim_C10_witness :
    (1 : ℚ) ≤ 1 ∧ (0 : ℚ) ≤ 1 ∧
    (treeSearchS dfA CExpr.base samplerId 3 1 1 [] simNone).pruned = [] :=
  ⟨le_refl 1, by norm_num,
   claim_C10_prune_never_fires dfA CExpr.base samplerId 3 1 1 [] simNone
     (le_refl 1) (by norm_num)
     (fun f o ho => by
       simp only [samplerId, List.mem_singleton] at ho
       rw [ho]
       exact le_refl _)⟩

end AlphaClean
